import Mathlib

/-!
Verification of the rlox core pipeline (scanner, parser, evaluator), shallowly
embedded from the Rust sources `src/lexing.rs`, `src/parsing.rs`,
`src/interpreter.rs`, `src/expr.rs` and `src/main.rs`.

Modelling conventions:
* Source text is a list of graphemes; each grapheme is a `String`
  (`unicode_segmentation` splits a Rust `String` into grapheme clusters, which
  the scanner consumes through a peekable iterator; here the iterator state is
  the remaining list).
* A token lexeme is kept as the list of graphemes it was scanned from; the Rust
  code stores their concatenation.  Re-scanning a lexeme re-segments the text,
  which recovers exactly this list, since grapheme segmentation is stable on
  grapheme boundaries.
* Rust `f64` is modelled by `F64`: an exact rational together with the special
  values infinity, negative infinity and NaN.  Rounding to representable
  doubles is not modelled (all numeric values appearing in the verified claims
  are small integers, on which binary64 arithmetic is exact); signed zero is
  not modelled.  Division by (positive) zero yields infinity, negative
  infinity or NaN exactly as IEEE 754 prescribes, mirroring that the Rust code
  performs no domain check before dividing.
* Loops that are not structurally recursive (the scanner driver loop and the
  recursive-descent parser) take an explicit fuel argument so that every
  definition is executable by kernel reduction; the entry points supply enough
  fuel, and fuel exhaustion is a distinguished outcome proved unreachable
  where a claim needs it.
-/

deriving instance DecidableEq for Except

namespace Rlox

attribute [local semireducible] Rat.add Rat.mul Rat.sub Rat.inv

/-- Grapheme cluster: one user-perceived character of source text. -/
abbrev GStr := String

/-- TokenKind from lexing.rs: the closed enumeration of token kinds. -/
inductive TokenKind where
  | Comma
  | Dot
  | LeftBrace
  | LeftParen
  | Minus
  | Plus
  | RightBrace
  | RightParen
  | Semicolon
  | Slash
  | Star
  | Bang
  | BangEqual
  | Equal
  | EqualEqual
  | Greater
  | GreaterEqual
  | Less
  | LessEqual
  | Identifier
  | Number
  | String
  | And
  | Class
  | Else
  | False
  | For
  | Fun
  | If
  | Nil
  | Or
  | Print
  | Return
  | Super
  | This
  | True
  | Var
  | While
  | Comment
  | Eof
  | NewLine
  | Whitespace
deriving DecidableEq

/-- Model of Rust `f64`: exact rationals plus the IEEE 754 special values.
Rounding to representable binary64 values is not modelled (exact on the small
integers the claims use); signed zero is not modelled. -/
inductive F64 where
  | finite (q : ℚ)
  | inf
  | negInf
  | nan
deriving DecidableEq

/-- Negation of an f64 value. -/
def F64.neg : F64 → F64
  | .finite q => .finite (-q)
  | .inf => .negInf
  | .negInf => .inf
  | .nan => .nan

/-- IEEE 754 addition on the modelled values. -/
def F64.add : F64 → F64 → F64
  | .nan, _ => .nan
  | _, .nan => .nan
  | .finite a, .finite b => .finite (a + b)
  | .finite _, .inf => .inf
  | .finite _, .negInf => .negInf
  | .inf, .finite _ => .inf
  | .negInf, .finite _ => .negInf
  | .inf, .inf => .inf
  | .negInf, .negInf => .negInf
  | .inf, .negInf => .nan
  | .negInf, .inf => .nan

/-- IEEE 754 subtraction: `a - b = a + (-b)`. -/
def F64.sub (a b : F64) : F64 := F64.add a (F64.neg b)

/-- IEEE 754 multiplication on the modelled values. -/
def F64.mul : F64 → F64 → F64
  | .nan, _ => .nan
  | _, .nan => .nan
  | .finite a, .finite b => .finite (a * b)
  | .finite a, .inf => if a = 0 then .nan else if 0 < a then .inf else .negInf
  | .finite a, .negInf => if a = 0 then .nan else if 0 < a then .negInf else .inf
  | .inf, .finite b => if b = 0 then .nan else if 0 < b then .inf else .negInf
  | .negInf, .finite b => if b = 0 then .nan else if 0 < b then .negInf else .inf
  | .inf, .inf => .inf
  | .negInf, .negInf => .inf
  | .inf, .negInf => .negInf
  | .negInf, .inf => .negInf

/-- IEEE 754 division on the modelled values.  Dividing a finite value by
(positive) zero yields infinity, negative infinity (sign of the dividend) or
NaN (for zero over zero); no error is possible. -/
def F64.div : F64 → F64 → F64
  | .nan, _ => .nan
  | _, .nan => .nan
  | .finite a, .finite b =>
      if b = 0 then
        if a = 0 then .nan else if 0 < a then .inf else .negInf
      else .finite (a / b)
  | .finite _, .inf => .finite 0
  | .finite _, .negInf => .finite 0
  | .inf, .finite b => if 0 ≤ b then .inf else .negInf
  | .negInf, .finite b => if 0 ≤ b then .negInf else .inf
  | .inf, .inf => .nan
  | .inf, .negInf => .nan
  | .negInf, .inf => .nan
  | .negInf, .negInf => .nan

/-- IEEE 754 strict less-than: any comparison involving NaN is false. -/
def F64.lt : F64 → F64 → Bool
  | .nan, _ => false
  | _, .nan => false
  | .finite a, .finite b => decide (a < b)
  | .finite _, .inf => true
  | .finite _, .negInf => false
  | .inf, _ => false
  | .negInf, .negInf => false
  | .negInf, _ => true

/-- IEEE 754 less-or-equal: any comparison involving NaN is false. -/
def F64.le : F64 → F64 → Bool
  | .nan, _ => false
  | _, .nan => false
  | .finite a, .finite b => decide (a ≤ b)
  | .finite _, .inf => true
  | .finite _, .negInf => false
  | .inf, .inf => true
  | .inf, _ => false
  | .negInf, _ => true

/-- IEEE 754 greater-than (`a > b` is `b < a`). -/
def F64.gt (a b : F64) : Bool := F64.lt b a

/-- IEEE 754 greater-or-equal (`a >= b` is `b <= a`). -/
def F64.ge (a b : F64) : Bool := F64.le b a

/-- IEEE 754 equality as used by the derived `PartialEq` on f64: NaN is equal
to nothing, including itself. -/
def F64.beq : F64 → F64 → Bool
  | .nan, _ => false
  | _, .nan => false
  | .finite a, .finite b => decide (a = b)
  | .inf, .inf => true
  | .negInf, .negInf => true
  | _, _ => false

/-- Rendering of an f64 by Rust `to_string`.  Integers print with no point or
exponent; exact decimal fractions print with a point.  The final fallback is
unreachable for values denoting genuine doubles (whose denominators are powers
of two). -/
def F64.to_string : F64 → String
  | .nan => "NaN"
  | .inf => "inf"
  | .negInf => "-inf"
  | .finite q =>
      if q.den = 1 then toString q.num
      else
        match (List.range (q.den + 1)).find? (fun k => 10 ^ k % q.den == 0) with
        | some k =>
            let scaled : ℕ := q.num.natAbs * ((10 ^ k) / q.den)
            let ip := scaled / 10 ^ k
            let fr := scaled % 10 ^ k
            let frs := Nat.toDigits 10 fr
            (if q.num < 0 then "-" else "") ++ toString ip ++ "." ++
              String.mk (List.replicate (k - frs.length) '0' ++ frs)
        | none => toString q.num ++ " over " ++ toString q.den

/-- LiteralValue from lexing.rs. -/
inductive LiteralValue where
  | Bool (b : Bool)
  | Number (n : F64)
  | String (s : String)
deriving DecidableEq

/-- Loc from lexing.rs: a span of source lines. -/
structure Loc where
  line_begin : ℕ
  line_end : ℕ
deriving DecidableEq

/-- Loc::is_single. -/
def Loc.is_single (l : Loc) : Bool := l.line_begin == l.line_end

/-- Loc::offset (usize subtraction; spans never decrease). -/
def Loc.offset (l : Loc) : ℕ := l.line_end - l.line_begin

/-- Loc::single. -/
def Loc.single (number : ℕ) : Loc := ⟨number, number⟩

/-- LexingError from lexing.rs. -/
structure LexingError where
  message : String
  lexeme : Option GStr
  loc : Loc
deriving DecidableEq

/-- Token from lexing.rs.  The lexeme is kept as its grapheme list; the Rust
code stores the concatenated string. -/
structure Token where
  kind : TokenKind
  lexeme : List GStr
  literal : Option LiteralValue
  loc : Loc
deriving DecidableEq

/-- Scanner::is_digit. -/
def is_digit (g : GStr) : Bool :=
  match g with
  | "0" | "1" | "2" | "3" | "4" | "5" | "6" | "7" | "8" | "9" => true
  | _ => false

/-- Scanner::is_ident_start. -/
def is_ident_start (g : GStr) : Bool :=
  match g with
  | "_" | "A" | "B" | "C" | "D" | "E" | "F" | "G" | "H" | "I" | "J" | "K"
  | "L" | "M" | "N" | "O" | "P" | "Q" | "R" | "S" | "T" | "U" | "V" | "W"
  | "X" | "Y" | "Z" | "a" | "b" | "c" | "d" | "e" | "f" | "g" | "h" | "i"
  | "j" | "k" | "l" | "m" | "n" | "o" | "p" | "q" | "r" | "s" | "t" | "u"
  | "v" | "w" | "x" | "y" | "z" => true
  | _ => false

/-- Scanner::is_ident_trailing. -/
def is_ident_trailing (g : GStr) : Bool := is_digit g || is_ident_start g

/-- Numeric value of a digit grapheme. -/
def digit_val (g : GStr) : ℕ :=
  match g with
  | "0" => 0
  | "1" => 1
  | "2" => 2
  | "3" => 3
  | "4" => 4
  | "5" => 5
  | "6" => 6
  | "7" => 7
  | "8" => 8
  | "9" => 9
  | _ => 0

/-- Accumulator for `parse_decimal`: digits before the point scale the
integer part, digits after it contribute at the running fractional scale. -/
def parse_decimal_aux : List GStr → ℚ → Bool → ℚ → ℚ
  | [], acc, _, _ => acc
  | g :: gs, acc, seenPt, scale =>
      if g = "." then parse_decimal_aux gs acc true scale
      else if seenPt then
        parse_decimal_aux gs (acc + digit_val g * scale) true (scale / 10)
      else parse_decimal_aux gs (acc * 10 + digit_val g) seenPt scale

/-- Model of `str::parse::<f64>` on the digit strings the scanner builds
(digits with at most one point): the exact decimal value.  Rounding to the
nearest double is not modelled. -/
def parse_decimal (gs : List GStr) : ℚ := parse_decimal_aux gs 0 false (1 / 10)

/-- Keyword table from Scanner::keyword_or_identifier_token.  The Rust code
matches on the concatenated accumulated text. -/
def keyword_kind (s : String) : TokenKind :=
  match s with
  | "and" => .And
  | "class" => .Class
  | "else" => .Else
  | "false" => .False
  | "for" => .For
  | "fun" => .Fun
  | "if" => .If
  | "nil" => .Nil
  | "or" => .Or
  | "print" => .Print
  | "return" => .Return
  | "super" => .Super
  | "this" => .This
  | "true" => .True
  | "var" => .Var
  | "while" => .While
  | _ => .Identifier

/-- Scanner::keyword_or_identifier_token (taking the grapheme list whose
concatenation the Rust code receives). -/
def keyword_or_identifier_token (gs : List GStr) (current_line : ℕ) : Token :=
  let kind := keyword_kind (String.join gs)
  let literal : Option LiteralValue :=
    match kind with
    | .False => some (.Bool false)
    | .True => some (.Bool true)
    | _ => none
  ⟨kind, gs, literal, Loc.single current_line⟩

/-- Trailing-grapheme loop of Scanner::parse_identifier: consume while the
next grapheme is an identifier-trailing character. -/
def ident_tail : List GStr → List GStr × List GStr
  | [] => ([], [])
  | g :: gs =>
      if is_ident_trailing g then
        let (acc, rest) := ident_tail gs
        (g :: acc, rest)
      else ([], g :: gs)

/-- Scanner::parse_identifier. -/
def parse_identifier (gs : List GStr) (first_char : GStr) (current_line : ℕ) :
    Token × List GStr :=
  let (acc, rest) := ident_tail gs
  (keyword_or_identifier_token (first_char :: acc) current_line, rest)

/-- Digit/point loop of Scanner::parse_number_literal: consume digits, allow
exactly one point; a second point is a lexing error. -/
def num_tail (current_line : ℕ) :
    List GStr → Bool → Except LexingError (List GStr × List GStr)
  | [], _ => .ok ([], [])
  | g :: gs, has_point =>
      if is_digit g then do
        let (acc, rest) ← num_tail current_line gs has_point
        .ok (g :: acc, rest)
      else if g = "." then
        if has_point then
          .error ⟨"Unexpected additional point while parsing number at line \x7b\x7d",
            some ".", Loc.single current_line⟩
        else do
          let (acc, rest) ← num_tail current_line gs true
          .ok ("." :: acc, rest)
      else .ok ([], g :: gs)

/-- Scanner::parse_number_literal. -/
def parse_number_literal (gs : List GStr) (first_digit : GStr)
    (current_line : ℕ) : Except LexingError (Token × List GStr) := do
  let (acc, rest) ← num_tail current_line gs (first_digit == ".")
  let lex := first_digit :: acc
  .ok (⟨.Number, lex, some (.Number (.finite (parse_decimal lex))),
    Loc.single current_line⟩, rest)

/-- Body loop of Scanner::parse_str_literal: returns the accumulated content
graphemes, the ending line, and the input remaining after the closing quote.
The escaped-quote arm of the Rust code pushes the two characters backslash
and quote (the Rust `Vec` holds them as one two-character string; the
concatenation is the same). -/
def str_tail : List GStr → ℕ → Except LexingError (List GStr × ℕ × List GStr)
  | [], line_current =>
      .error ⟨"Unexpected EOF in unterminated string", none, Loc.single line_current⟩
  | [g], line_current =>
      if g = "\n" then
        .error ⟨"Unexpected EOF in unterminated string", none, Loc.single line_current⟩
      else if g = "\"" then .ok ([], line_current, [])
      else do
        let (content, line_end, rest) ← str_tail [] line_current
        .ok (g :: content, line_end, rest)
  | g :: g2 :: gs2, line_current =>
      if g = "\n" then do
        let (content, line_end, rest) ← str_tail (g2 :: gs2) (line_current + 1)
        .ok ("\n" :: content, line_end, rest)
      else if g = "\\" then
        if g2 = "\"" then do
          let (content, line_end, rest) ← str_tail gs2 line_current
          .ok ("\\" :: "\"" :: content, line_end, rest)
        else do
          let (content, line_end, rest) ← str_tail (g2 :: gs2) line_current
          .ok ("\\" :: content, line_end, rest)
      else if g = "\"" then .ok ([], line_current, g2 :: gs2)
      else do
        let (content, line_end, rest) ← str_tail (g2 :: gs2) line_current
        .ok (g :: content, line_end, rest)

/-- Scanner::parse_str_literal (called after the opening quote was consumed). -/
def parse_str_literal (gs : List GStr) (line_begin : ℕ) :
    Except LexingError (Token × List GStr) := do
  let (content, line_end, rest) ← str_tail gs line_begin
  .ok (⟨.String, "\"" :: (content ++ ["\""]),
    some (.String (String.join content)), ⟨line_begin, line_end⟩⟩, rest)

/-- Helper shared by the single-character arms of Scanner::parse_token. -/
def single_token (kind : TokenKind) (g : GStr) (current_line : ℕ) : Token :=
  ⟨kind, [g], none, Loc.single current_line⟩

/-- Scanner::parse_token: classify one token starting at the head of the
remaining graphemes.  An exhausted input yields the Eof token with lexeme
`"\x00"`. -/
def parse_token (l : List GStr) (current_line : ℕ) :
    Except LexingError (Token × List GStr) :=
  match l with
  | [] => .ok (⟨.Eof, ["\x00"], none, Loc.single current_line⟩, [])
  | g :: gs =>
      if g = "\"" then parse_str_literal gs current_line
      else if is_digit g then parse_number_literal gs g current_line
      else if g = "." then
        match gs with
        | g2 :: _ =>
            if is_digit g2 then parse_number_literal gs g current_line
            else .ok (single_token .Dot g current_line, gs)
        | [] => .ok (single_token .Dot g current_line, gs)
      else if is_ident_start g then .ok (parse_identifier gs g current_line)
      else if g = " " ∨ g = "\r" ∨ g = "\t" then
        .ok (single_token .Whitespace g current_line, gs)
      else if g = "(" then .ok (single_token .LeftParen g current_line, gs)
      else if g = ")" then .ok (single_token .RightParen g current_line, gs)
      else if g = "\x7b" then .ok (single_token .LeftBrace g current_line, gs)
      else if g = "\x7d" then .ok (single_token .RightBrace g current_line, gs)
      else if g = "," then .ok (single_token .Comma g current_line, gs)
      else if g = "-" then .ok (single_token .Minus g current_line, gs)
      else if g = "+" then .ok (single_token .Plus g current_line, gs)
      else if g = ";" then .ok (single_token .Semicolon g current_line, gs)
      else if g = "*" then .ok (single_token .Star g current_line, gs)
      else if g = "\n" then .ok (single_token .NewLine g current_line, gs)
      else if g = "!" then
        match gs with
        | g2 :: gs2 =>
            if g2 = "=" then
              .ok (⟨.BangEqual, ["!", "="], none, Loc.single current_line⟩, gs2)
            else .ok (single_token .Bang g current_line, gs)
        | [] => .ok (single_token .Bang g current_line, gs)
      else if g = "=" then
        match gs with
        | g2 :: gs2 =>
            if g2 = "=" then
              .ok (⟨.EqualEqual, ["=", "="], none, Loc.single current_line⟩, gs2)
            else .ok (single_token .Equal g current_line, gs)
        | [] => .ok (single_token .Equal g current_line, gs)
      else if g = "<" then
        match gs with
        | g2 :: gs2 =>
            if g2 = "=" then
              .ok (⟨.LessEqual, ["<", "="], none, Loc.single current_line⟩, gs2)
            else .ok (single_token .Less g current_line, gs)
        | [] => .ok (single_token .Less g current_line, gs)
      else if g = ">" then
        match gs with
        | g2 :: gs2 =>
            if g2 = "=" then
              .ok (⟨.GreaterEqual, [">", "="], none, Loc.single current_line⟩, gs2)
            else .ok (single_token .Greater g current_line, gs)
        | [] => .ok (single_token .Greater g current_line, gs)
      else if g = "/" then
        match gs with
        | g2 :: gs2 =>
            if g2 = "/" then
              .ok (⟨.Comment, ["/", "/"], none, Loc.single current_line⟩, gs2)
            else .ok (single_token .Slash g current_line, gs)
        | [] => .ok (single_token .Slash g current_line, gs)
      else .error ⟨"Unknown token", some g, Loc.single current_line⟩

/-- Scanner::consume_line: the Rust loop consumes one grapheme, then stops if
the input is exhausted or the next (peeked) grapheme is a newline. -/
def consume_line : List GStr → List GStr
  | [] => []
  | _ :: gs =>
      match gs with
      | "\n" :: _ => gs
      | _ => consume_line gs

/-- Driver loop of Scanner::scan, with explicit fuel (each iteration consumes
at least one grapheme, so `scan` supplies enough).  Whitespace tokens are
dropped, a comment token discards via consume_line, a newline token bumps the
line counter, multi-line tokens advance it by their span, and the loop stops
after pushing the Eof token. -/
def scan_loop : ℕ → List GStr → ℕ → Except LexingError (List Token)
  | 0, _, _ => .error ⟨"out of fuel", none, Loc.single 0⟩
  | fuel + 1, l, current_line =>
      match parse_token l current_line with
      | .error e => .error e
      | .ok (t, rest) =>
          if t.kind = .Whitespace then scan_loop fuel rest current_line
          else if t.kind = .Comment then
            scan_loop fuel (consume_line rest) current_line
          else if t.kind = .NewLine then scan_loop fuel rest (current_line + 1)
          else if t.kind = .Eof then .ok [t]
          else
            match scan_loop fuel rest
                (if t.loc.is_single then current_line
                 else current_line + t.loc.offset) with
            | .error e => .error e
            | .ok ts => .ok (t :: ts)

/-- Scanner::scan: run the driver loop from line 1 on the whole source. -/
def scan (source : List GStr) : Except LexingError (List Token) :=
  scan_loop (source.length + 1) source 1

example : scan ["1", ";"] =
    .ok [⟨.Number, ["1"], some (.Number (.finite 1)), Loc.single 1⟩,
      ⟨.Semicolon, [";"], none, Loc.single 1⟩,
      ⟨.Eof, ["\x00"], none, Loc.single 1⟩] := by decide

example : scan ["n", "i", "l", " ", "=", "=", " ", "n", "i", "l", ";"] =
    .ok [⟨.Nil, ["n", "i", "l"], none, Loc.single 1⟩,
      ⟨.EqualEqual, ["=", "="], none, Loc.single 1⟩,
      ⟨.Nil, ["n", "i", "l"], none, Loc.single 1⟩,
      ⟨.Semicolon, [";"], none, Loc.single 1⟩,
      ⟨.Eof, ["\x00"], none, Loc.single 1⟩] := by decide

example : scan ["\"", "a", "\\", "\"", "b", "\""] =
    .ok [⟨.String, ["\"", "a", "\\", "\"", "b", "\""],
      some (.String "a\\\"b"), ⟨1, 1⟩⟩,
      ⟨.Eof, ["\x00"], none, Loc.single 1⟩] := by decide

example : scan ["/", "/", "\n", "1", ";"] =
    .ok [⟨.Eof, ["\x00"], none, Loc.single 1⟩] := by decide

/-- Expr from expr.rs. -/
inductive Expr where
  | Binary (left : Expr) (op : Token) (right : Expr)
  | Grouping (expr : Expr)
  | Literal (value : Option LiteralValue)
  | Unary (op : Token) (right : Expr)
deriving DecidableEq

/-- Modelled from the spec: the module `stmt` (file `stmt.rs`) is used by
parsing.rs and interpreter.rs but is not among the provided sources.  The spec
states: Stmt is a variant ExpressionStatement(Expr) | PrintStatement(Expr);
the parser constructs the two forms as `Stmt::Expr` and `Stmt::Print`. -/
inductive Stmt where
  | Expr (e : Expr)
  | Print (e : Expr)
deriving DecidableEq

/-- ParsingError from parsing.rs. -/
structure ParsingError where
  message : String
  token : Token
deriving DecidableEq

/-- Failure outcomes of the parser: an ordinary ParsingError, the
`panic!("Unexpected end of tokens. This is a bug.")` branches, or fuel
exhaustion (a modelling artifact, proved unreachable for the fuel the entry
point supplies). -/
inductive PFail where
  | perr (e : ParsingError)
  | panicked
  | fuelOut
deriving DecidableEq

/-- Mirror of expect_closing_paren from parsing.rs: `it.next()` must be a
RightParen; a missing token is the panic branch. -/
def expect_closing_paren : List Token → Except PFail (List Token)
  | [] => .error .panicked
  | t :: rest =>
      if t.kind = .RightParen then .ok rest
      else .error (.perr ⟨"Syntax error: expected \x27)\x27", t⟩)

/-- Mirror of expect_semicolon from parsing.rs. -/
def expect_semicolon : List Token → Except PFail (List Token)
  | [] => .error .panicked
  | t :: rest =>
      if t.kind = .Semicolon then .ok rest
      else .error (.perr ⟨"Syntax error: expected \x27;\x27", t⟩)

/-- Selector for the mutually recursive expression productions of parsing.rs
(expression, equality, comparison, term, factor, unary, primary), with one
extra selector per `while let` loop carrying its accumulated left operand.
They are merged into one fuel-indexed function so that the recursion is
structural and computable by kernel reduction. -/
inductive PLevel where
  | expression
  | equality
  | equalityLoop (left : Expr)
  | comparison
  | comparisonLoop (left : Expr)
  | term
  | termLoop (left : Expr)
  | factor
  | factorLoop (left : Expr)
  | unary
  | primary
deriving DecidableEq

/-- Token kinds matched by the equality production. -/
def is_equality_op (k : TokenKind) : Bool := k = .BangEqual || k = .EqualEqual

/-- Token kinds matched by the comparison production. -/
def is_comparison_op (k : TokenKind) : Bool :=
  k = .Greater || k = .GreaterEqual || k = .Less || k = .LessEqual

/-- Token kinds matched by the term production. -/
def is_term_op (k : TokenKind) : Bool := k = .Minus || k = .Plus

/-- Token kinds matched by the factor production. -/
def is_factor_op (k : TokenKind) : Bool := k = .Slash || k = .Star

/-- Token kinds matched by the unary production. -/
def is_unary_op (k : TokenKind) : Bool := k = .Bang || k = .Minus

/-- Token kinds accepted as literals by the primary production. -/
def is_literal_kind (k : TokenKind) : Bool :=
  k = .False || k = .True || k = .Nil || k = .Number || k = .String

/-- The expression parser of parsing.rs.  Each selector mirrors one Rust
function body; each `while let` loop is its own selector recursing on the
accumulated expression; the parser state is the remaining token list. -/
def parse_expr : ℕ → PLevel → List Token → Except PFail (Expr × List Token)
  | 0, _, _ => .error .fuelOut
  | fuel + 1, lvl, l =>
      match lvl with
      | .expression => parse_expr fuel .equality l
      | .equality => do
          let (left, rest) ← parse_expr fuel .comparison l
          parse_expr fuel (.equalityLoop left) rest
      | .equalityLoop left =>
          match l with
          | op :: rest1 =>
              if is_equality_op op.kind then do
                let (right, rest2) ← parse_expr fuel .comparison rest1
                parse_expr fuel (.equalityLoop (.Binary left op right)) rest2
              else .ok (left, l)
          | [] => .ok (left, l)
      | .comparison => do
          let (left, rest) ← parse_expr fuel .term l
          parse_expr fuel (.comparisonLoop left) rest
      | .comparisonLoop left =>
          match l with
          | op :: rest1 =>
              if is_comparison_op op.kind then do
                let (right, rest2) ← parse_expr fuel .term rest1
                parse_expr fuel (.comparisonLoop (.Binary left op right)) rest2
              else .ok (left, l)
          | [] => .ok (left, l)
      | .term => do
          let (left, rest) ← parse_expr fuel .factor l
          parse_expr fuel (.termLoop left) rest
      | .termLoop left =>
          match l with
          | op :: rest1 =>
              if is_term_op op.kind then do
                let (right, rest2) ← parse_expr fuel .factor rest1
                parse_expr fuel (.termLoop (.Binary left op right)) rest2
              else .ok (left, l)
          | [] => .ok (left, l)
      | .factor => do
          let (left, rest) ← parse_expr fuel .unary l
          parse_expr fuel (.factorLoop left) rest
      | .factorLoop left =>
          match l with
          | op :: rest1 =>
              if is_factor_op op.kind then do
                let (right, rest2) ← parse_expr fuel .unary rest1
                parse_expr fuel (.factorLoop (.Binary left op right)) rest2
              else .ok (left, l)
          | [] => .ok (left, l)
      | .unary =>
          match l with
          | op :: rest1 =>
              if is_unary_op op.kind then do
                let (right, rest2) ← parse_expr fuel .unary rest1
                .ok (.Unary op right, rest2)
              else parse_expr fuel .primary l
          | [] => parse_expr fuel .primary l
      | .primary =>
          match l with
          | [] => .error .panicked
          | t :: rest =>
              if is_literal_kind t.kind then .ok (.Literal t.literal, rest)
              else if t.kind = .LeftParen then do
                let (e, rest2) ← parse_expr fuel .expression rest
                let rest3 ← expect_closing_paren rest2
                .ok (.Grouping e, rest3)
              else if t.kind = .Eof then
                .error (.perr ⟨"Syntax error: expected primary expression, got EOF", t⟩)
              else .error (.perr ⟨"Syntax error: unexpected token", t⟩)

/-- expression_statement from parsing.rs. -/
def expression_statement (fuel : ℕ) (l : List Token) :
    Except PFail (Stmt × List Token) := do
  let (e, rest) ← parse_expr fuel .expression l
  let rest2 ← expect_semicolon rest
  .ok (.Expr e, rest2)

/-- print_statement from parsing.rs (the Print keyword was already consumed). -/
def print_statement (fuel : ℕ) (l : List Token) :
    Except PFail (Stmt × List Token) := do
  let (e, rest) ← parse_expr fuel .expression l
  let rest2 ← expect_semicolon rest
  .ok (.Print e, rest2)

/-- Statement loop of parse from parsing.rs: peek; stop at Eof; a Print
keyword is consumed and a print statement parsed; anything else (including a
missing peek, which the Rust `_` arm also catches) parses an expression
statement. -/
def parse_loop : ℕ → List Token → Except PFail (List Stmt)
  | 0, _ => .error .fuelOut
  | fuel + 1, l =>
      match l with
      | t :: rest0 =>
          if t.kind = .Eof then .ok []
          else if t.kind = .Print then do
            let (s, rest) ← print_statement fuel rest0
            let ss ← parse_loop fuel rest
            .ok (s :: ss)
          else do
            let (s, rest) ← expression_statement fuel l
            let ss ← parse_loop fuel rest
            .ok (s :: ss)
      | [] => do
          let (s, rest) ← expression_statement fuel []
          let ss ← parse_loop fuel rest
          .ok (s :: ss)

/-- parse from parsing.rs, with fuel sufficient for the whole token list (the
fuel bound is proved unreachable below). -/
def parse (tokens : List Token) : Except PFail (List Stmt) :=
  parse_loop (8 * tokens.length + 9) tokens

/-- RuntimeError from interpreter.rs. -/
structure RuntimeError where
  message : String
  loc : Loc
deriving DecidableEq

/-- Derived `PartialEq` on LiteralValue: same-variant fields compare (f64 by
IEEE equality, so NaN equals nothing), different variants are unequal. -/
def lit_eq : LiteralValue → LiteralValue → Bool
  | .Bool a, .Bool b => a == b
  | .Number a, .Number b => F64.beq a b
  | .String a, .String b => a == b
  | _, _ => false

/-- is_equal from interpreter.rs. -/
def is_equal : Option LiteralValue → Option LiteralValue → Bool
  | none, none => true
  | none, some _ => false
  | some _, none => false
  | some a, some b => lit_eq a b

/-- is_truthy from interpreter.rs. -/
def is_truthy : Option LiteralValue → Bool
  | some (.Bool b) => b
  | none => false
  | _ => true

/-- expect_number from interpreter.rs. -/
def expect_number (op : Token) (rhs : Option LiteralValue) :
    Except RuntimeError F64 :=
  match rhs with
  | some (.Number n) => .ok n
  | _ => .error ⟨"Unary operator " ++ String.join op.lexeme ++
      " expects a numeric operand", op.loc⟩

/-- expect_numbers from interpreter.rs. -/
def expect_numbers (lhs : Option LiteralValue) (op : Token)
    (rhs : Option LiteralValue) : Except RuntimeError (F64 × F64) :=
  match lhs, rhs with
  | some (.Number a), some (.Number b) => .ok (a, b)
  | _, _ => .error ⟨"Binary operator " ++ String.join op.lexeme ++
      " expects two numeric operands", op.loc⟩

/-- evaluate from interpreter.rs. -/
def evaluate : Expr → Except RuntimeError (Option LiteralValue)
  | .Binary left op right => do
      let lv ← evaluate left
      let rv ← evaluate right
      match op.kind with
      | .BangEqual => .ok (some (.Bool (!is_equal lv rv)))
      | .EqualEqual => .ok (some (.Bool (is_equal lv rv)))
      | .Greater => do
          let (a, b) ← expect_numbers lv op rv
          .ok (some (.Bool (F64.gt a b)))
      | .GreaterEqual => do
          let (a, b) ← expect_numbers lv op rv
          .ok (some (.Bool (F64.ge a b)))
      | .Less => do
          let (a, b) ← expect_numbers lv op rv
          .ok (some (.Bool (F64.lt a b)))
      | .LessEqual => do
          let (a, b) ← expect_numbers lv op rv
          .ok (some (.Bool (F64.le a b)))
      | .Minus => do
          let (a, b) ← expect_numbers lv op rv
          .ok (some (.Number (F64.sub a b)))
      | .Plus =>
          match lv, rv with
          | some (.Number a), some (.Number b) =>
              .ok (some (.Number (F64.add a b)))
          | some (.String a), some (.String b) =>
              .ok (some (.String (a ++ b)))
          | _, _ => .error ⟨"Operator " ++ String.join op.lexeme ++
              " expects either two numeric or two string operands", op.loc⟩
      | .Slash => do
          let (a, b) ← expect_numbers lv op rv
          .ok (some (.Number (F64.div a b)))
      | .Star => do
          let (a, b) ← expect_numbers lv op rv
          .ok (some (.Number (F64.mul a b)))
      | _ => .error ⟨"Invalid binary operator " ++ String.join op.lexeme, op.loc⟩
  | .Grouping e => evaluate e
  | .Literal v => .ok v
  | .Unary op right => do
      let rv ← evaluate right
      match op.kind with
      | .Minus => do
          let n ← expect_number op rv
          .ok (some (.Number (F64.neg n)))
      | .Bang => .ok (some (.Bool (!is_truthy rv)))
      | _ => .error ⟨"invalid unary operator?", op.loc⟩

/-- stringify from interpreter.rs. -/
def stringify : Option LiteralValue → String
  | none => "nil"
  | some (.Bool b) => if b then "true" else "false"
  | some (.Number n) => F64.to_string n
  | some (.String s) => s

/-- execute from interpreter.rs, with the `println!` side effect made explicit
as the list of lines printed (empty or a singleton). -/
def execute : Stmt → Except RuntimeError (List String)
  | .Expr e => do
      let _ ← evaluate e
      .ok []
  | .Print e => do
      let v ← evaluate e
      .ok [stringify v]

/-- interpret from interpreter.rs: execute the statements in order, stopping
at the first RuntimeError.  The result pairs the lines printed before the
stop with the error, if any (the Rust function prints to stdout and returns
`Result<(), RuntimeError>`). -/
def interpret : List Stmt → List String × Option RuntimeError
  | [] => ([], none)
  | s :: rest =>
      match execute s with
      | .error e => ([], some e)
      | .ok out =>
          let (outs, err) := interpret rest
          (out ++ outs, err)

/-- Display for Expr from expr.rs, with `parenthesize` inlined at the two
arities at which it is called. -/
def expr_to_string : Expr → String
  | .Binary left op right =>
      "(" ++ String.join op.lexeme ++ " " ++ expr_to_string left ++ " " ++
        expr_to_string right ++ ")"
  | .Grouping e => "(group " ++ expr_to_string e ++ ")"
  | .Literal none => "nil"
  | .Literal (some (.Bool b)) => if b then "true" else "false"
  | .Literal (some (.Number n)) => F64.to_string n
  | .Literal (some (.String s)) => s
  | .Unary op right => "(" ++ String.join op.lexeme ++ " " ++
      expr_to_string right ++ ")"

/-- Number token as the parser sees it: the parser inspects only kinds and
literal payloads, so lexeme and location are fixed arbitrarily. -/
def num_token (q : ℚ) : Token :=
  ⟨.Number, [], some (.Number (.finite q)), Loc.single 1⟩

/-- Operator token with a given kind (lexeme and location irrelevant to the
parse tree shape). -/
def op_token (k : TokenKind) : Token := ⟨k, [], none, Loc.single 1⟩

/-- Literal expression holding a finite number. -/
def num_literal (q : ℚ) : Expr := .Literal (some (.Number (.finite q)))

/-- Semicolon token as the scanner emits it on line 1. -/
def semicolon_token : Token := ⟨.Semicolon, [";"], none, Loc.single 1⟩

/-- Eof token as the scanner emits it on line 1. -/
def eof_token : Token := ⟨.Eof, ["\x00"], none, Loc.single 1⟩

/-- Plus token as the scanner emits it on line 1. -/
def tok_plus : Token := ⟨.Plus, ["+"], none, Loc.single 1⟩

/-- Star token as the scanner emits it on line 1. -/
def tok_star : Token := ⟨.Star, ["*"], none, Loc.single 1⟩

/-- EqualEqual token as the scanner emits it on line 1. -/
def tok_eqeq : Token := ⟨.EqualEqual, ["=", "="], none, Loc.single 1⟩

/-- Nil keyword token as the scanner emits it on line 1. -/
def tok_nil : Token := ⟨.Nil, ["n", "i", "l"], none, Loc.single 1⟩

/-- Graphemes of the source text of the spec example `1 + 2 * 3;`. -/
def src_arith : List GStr := ["1", " ", "+", " ", "2", " ", "*", " ", "3", ";"]

/-- Token stream the scanner produces for `1 + 2 * 3;`. -/
def toks_arith : List Token :=
  [⟨.Number, ["1"], some (.Number (.finite 1)), Loc.single 1⟩,
   tok_plus,
   ⟨.Number, ["2"], some (.Number (.finite 2)), Loc.single 1⟩,
   tok_star,
   ⟨.Number, ["3"], some (.Number (.finite 3)), Loc.single 1⟩,
   semicolon_token, eof_token]

/-- Parse tree of `1 + 2 * 3`: multiplication grouped under addition. -/
def tree_arith : Expr :=
  .Binary (num_literal 1) tok_plus (.Binary (num_literal 2) tok_star (num_literal 3))

/-- Graphemes of `nil == nil;`. -/
def src_nil_eq_nil : List GStr :=
  ["n", "i", "l", " ", "=", "=", " ", "n", "i", "l", ";"]

/-- Token stream of `nil == nil;`. -/
def toks_nil_eq_nil : List Token :=
  [tok_nil, tok_eqeq, tok_nil, semicolon_token, eof_token]

/-- Parse tree of `nil == nil`. -/
def tree_nil_eq_nil : Expr := .Binary (.Literal none) tok_eqeq (.Literal none)

/-- Graphemes of `nil == false;`. -/
def src_nil_eq_false : List GStr :=
  ["n", "i", "l", " ", "=", "=", " ", "f", "a", "l", "s", "e", ";"]

/-- Token stream of `nil == false;`. -/
def toks_nil_eq_false : List Token :=
  [tok_nil, tok_eqeq,
   ⟨.False, ["f", "a", "l", "s", "e"], some (.Bool false), Loc.single 1⟩,
   semicolon_token, eof_token]

/-- Parse tree of `nil == false`. -/
def tree_nil_eq_false : Expr :=
  .Binary (.Literal none) tok_eqeq (.Literal (some (.Bool false)))

/-- Graphemes of the mixed-operand source `1 + "a";`. -/
def src_mixed_plus : List GStr := ["1", " ", "+", " ", "\"", "a", "\"", ";"]

/-- Token stream of `1 + "a";`. -/
def toks_mixed_plus : List Token :=
  [⟨.Number, ["1"], some (.Number (.finite 1)), Loc.single 1⟩,
   tok_plus,
   ⟨.String, ["\"", "a", "\""], some (.String "a"), Loc.single 1⟩,
   semicolon_token, eof_token]

/-- Parse tree of `1 + "a"`. -/
def tree_mixed_plus : Expr :=
  .Binary (num_literal 1) tok_plus (.Literal (some (.String "a")))

/-- Discriminator of the four dynamic value shapes: nil, Bool, Number,
String. -/
def val_type : Option LiteralValue → ℕ
  | none => 0
  | some (.Bool _) => 1
  | some (.Number _) => 2
  | some (.String _) => 3

/-- Both operands are Numbers. -/
def num_pair : Option LiteralValue → Option LiteralValue → Bool
  | some (.Number _), some (.Number _) => true
  | _, _ => false

/-- Both operands are Strings. -/
def str_pair : Option LiteralValue → Option LiteralValue → Bool
  | some (.String _), some (.String _) => true
  | _, _ => false

/-- Whether a parser selector is one of the while-loop selectors. -/
def plevel_is_loop : PLevel → Bool
  | .equalityLoop _ => true
  | .comparisonLoop _ => true
  | .termLoop _ => true
  | .factorLoop _ => true
  | _ => false

/-- Fuel rank of each parser selector: how much fuel the selector may need
beyond eight units per remaining token. -/
def plevel_rank : PLevel → ℕ
  | .primary => 1
  | .unary => 2
  | .factor => 3
  | .term => 4
  | .comparison => 5
  | .equality => 6
  | .expression => 7
  | .factorLoop _ => 10
  | .termLoop _ => 11
  | .comparisonLoop _ => 12
  | .equalityLoop _ => 13

/-- The token list is nonempty and its last element has kind Eof: the shape
the scanner guarantees for its output. -/
def eof_last : List Token → Bool
  | [] => false
  | [t] => t.kind == TokenKind.Eof
  | _ :: rest => eof_last rest

/-- A parser outcome that avoids the panic branches and whose success value
satisfies `f` (used with `f` asserting the remaining tokens still end in
Eof). -/
def pfail_safe {α : Type} (f : α → Prop) : Except PFail α → Prop
  | .error .panicked => False
  | .ok a => f a
  | .error _ => True

/-- Invariant of the content a string-literal scan accumulates: a quote only
ever appears immediately after a backslash (pushed by the escape arm), a
lone backslash is never last and is never followed by a quote, so appending
a closing quote and re-scanning reproduces the content verbatim. -/
inductive GoodContent : List GStr → Prop where
  | nil : GoodContent []
  | esc (rest : List GStr) : GoodContent rest →
      GoodContent ("\\" :: "\"" :: rest)
  | nl (rest : List GStr) : GoodContent rest → GoodContent ("\n" :: rest)
  | bslash (h : GStr) (rest : List GStr) : h ≠ "\"" →
      GoodContent (h :: rest) → GoodContent ("\\" :: h :: rest)
  | other (g : GStr) (rest : List GStr) : g ≠ "\"" → g ≠ "\\" → g ≠ "\n" →
      GoodContent rest → GoodContent (g :: rest)

/-- C1: scanning then parsing `1 + 2 * 3;` yields exactly one expression
statement whose tree groups multiplication under addition, pretty-printing
as `(+ 1 (* 2 3))`, and evaluating it yields the number 7, which stringify
formats as `7`; moreover every binary precedence level (equality,
comparison, term, factor) parses strictly left-associatively, and factor
binds tighter than term in both operand orders. -/
theorem c1_precedence_pipeline :
    (scan src_arith = .ok toks_arith ∧
     parse toks_arith = .ok [.Expr tree_arith] ∧
     expr_to_string tree_arith = "(+ 1 (* 2 3))" ∧
     evaluate tree_arith = .ok (some (.Number (.finite 7))) ∧
     stringify (some (.Number (.finite 7))) = "7") ∧
    (∀ k1 k2 : TokenKind, ∀ a b c : ℚ,
      ((is_equality_op k1 = true ∧ is_equality_op k2 = true) ∨
       (is_comparison_op k1 = true ∧ is_comparison_op k2 = true) ∨
       (is_term_op k1 = true ∧ is_term_op k2 = true) ∨
       (is_factor_op k1 = true ∧ is_factor_op k2 = true)) →
      parse [num_token a, op_token k1, num_token b, op_token k2, num_token c,
          semicolon_token, eof_token] =
        .ok [.Expr (.Binary (.Binary (num_literal a) (op_token k1) (num_literal b))
          (op_token k2) (num_literal c))]) ∧
    (∀ a b c : ℚ,
      parse [num_token a, op_token .Plus, num_token b, op_token .Star,
          num_token c, semicolon_token, eof_token] =
        .ok [.Expr (.Binary (num_literal a) (op_token .Plus)
          (.Binary (num_literal b) (op_token .Star) (num_literal c)))] ∧
      parse [num_token a, op_token .Star, num_token b, op_token .Plus,
          num_token c, semicolon_token, eof_token] =
        .ok [.Expr (.Binary (.Binary (num_literal a) (op_token .Star)
          (num_literal b)) (op_token .Plus) (num_literal c))]) := by
  refine ⟨⟨by decide, by decide, by decide, by decide, by decide⟩, ?_, ?_⟩
  · intro k1 k2 a b c h
    simp only [is_equality_op, is_comparison_op, is_term_op, is_factor_op,
      Bool.or_eq_true, decide_eq_true_eq] at h
    rcases h with ⟨h1, h2⟩ | ⟨h1, h2⟩ | ⟨h1, h2⟩ | ⟨h1, h2⟩
    · rcases h1 with rfl | rfl <;> rcases h2 with rfl | rfl <;> rfl
    · rcases h1 with ((rfl | rfl) | rfl) | rfl <;>
        rcases h2 with ((rfl | rfl) | rfl) | rfl <;> rfl
    · rcases h1 with rfl | rfl <;> rcases h2 with rfl | rfl <;> rfl
    · rcases h1 with rfl | rfl <;> rcases h2 with rfl | rfl <;> rfl
  · intro a b c
    exact ⟨rfl, rfl⟩

/-- Witness for C1: the left-associativity clause applied to
`1 == 2 != 3 ;` tokens. -/
theorem c1_precedence_pipeline_witness :
    parse [num_token 1, op_token .EqualEqual, num_token 2, op_token .BangEqual,
        num_token 3, semicolon_token, eof_token] =
      .ok [.Expr (.Binary (.Binary (num_literal 1) (op_token .EqualEqual)
        (num_literal 2)) (op_token .BangEqual) (num_literal 3))] :=
  c1_precedence_pipeline.2.1 .EqualEqual .BangEqual 1 2 3
    (Or.inl ⟨by decide, by decide⟩)

/-- C2 counterexample: scanning the string literal `"a\"b"` succeeds, but the
stored literal value keeps the backslash: it is the four-character string
`a\"b`, not the three-character string `a"b` the claim asserts. -/
theorem c2_escaped_quote_counterexample :
    scan ["\"", "a", "\\", "\"", "b", "\""] =
      .ok [⟨.String, ["\"", "a", "\\", "\"", "b", "\""],
        some (.String "a\\\"b"), ⟨1, 1⟩⟩,
        ⟨.Eof, ["\x00"], none, Loc.single 1⟩] ∧
    "a\\\"b" ≠ "a\"b" := by
  exact ⟨by decide, by decide⟩

/-- C2 amended: the scanner recognizes the escape sequence backslash-quote,
so the quote does not terminate the string, but it stores both characters:
an escaped quote contributes the backslash and the quote to the token's
stored literal content (the literal of `"a\"b"` is the four-character string
`a\"b`). -/
theorem c2_escaped_quote_amended :
    ∀ gs line content line_end rest,
      str_tail gs line = .ok (content, line_end, rest) →
      str_tail ("\\" :: "\"" :: gs) line =
        .ok ("\\" :: "\"" :: content, line_end, rest) := by
  intro gs line content line_end rest h
  simp only [str_tail, h]
  rfl

/-- Witness for C2 amended: the tail of `a\"b"` after the escape. -/
theorem c2_escaped_quote_amended_witness :
    str_tail ["\\", "\"", "b", "\""] 1 = .ok (["\\", "\"", "b"], 1, []) :=
  c2_escaped_quote_amended ["b", "\""] 1 ["b"] 1 [] (by decide)

/-- C3 (code bug): `consume_line` consumes one grapheme before peeking, so a
comment immediately followed by a newline swallows the newline and the whole
next line: scanning `//\n1;` discards the `1 ;` tokens entirely (first
conjunct), whereas a non-empty comment `//x\n1;` keeps them as the claim
describes (second conjunct). -/
theorem c3_empty_comment_swallows_next_line :
    scan ["/", "/", "\n", "1", ";"] =
      .ok [⟨.Eof, ["\x00"], none, Loc.single 1⟩] ∧
    scan ["/", "/", "x", "\n", "1", ";"] =
      .ok [⟨.Number, ["1"], some (.Number (.finite 1)), Loc.single 2⟩,
        ⟨.Semicolon, [";"], none, Loc.single 2⟩,
        ⟨.Eof, ["\x00"], none, Loc.single 2⟩] := by
  exact ⟨by decide, by decide⟩

/-- C4: the equality operators never produce a runtime error for operand
values of any shapes, the comparison is is_equal (structural via the derived
PartialEq), nil is equal only to nil, operands of different dynamic types
compare unequal, and the full pipeline evaluates `nil == nil;` to true and
`nil == false;` to false. -/
theorem c4_equality_never_errors :
    (∀ (op : Token) (l r : Option LiteralValue), op.kind = .EqualEqual →
      evaluate (.Binary (.Literal l) op (.Literal r)) =
        .ok (some (.Bool (is_equal l r)))) ∧
    (∀ (op : Token) (l r : Option LiteralValue), op.kind = .BangEqual →
      evaluate (.Binary (.Literal l) op (.Literal r)) =
        .ok (some (.Bool (!is_equal l r)))) ∧
    is_equal none none = true ∧
    (∀ v, is_equal none (some v) = false ∧ is_equal (some v) none = false) ∧
    (∀ l r, val_type l ≠ val_type r → is_equal l r = false) ∧
    (scan src_nil_eq_nil = .ok toks_nil_eq_nil ∧
     parse toks_nil_eq_nil = .ok [.Expr tree_nil_eq_nil] ∧
     evaluate tree_nil_eq_nil = .ok (some (.Bool true))) ∧
    (scan src_nil_eq_false = .ok toks_nil_eq_false ∧
     parse toks_nil_eq_false = .ok [.Expr tree_nil_eq_false] ∧
     evaluate tree_nil_eq_false = .ok (some (.Bool false))) := by
  refine ⟨?_, ?_, rfl, fun v => ⟨rfl, rfl⟩, ?_,
    ⟨by decide, by decide, by decide⟩, ⟨by decide, by decide, by decide⟩⟩
  · intro op l r h
    rcases op with ⟨k, lex, lit, loc⟩
    obtain rfl : k = .EqualEqual := h
    rfl
  · intro op l r h
    rcases op with ⟨k, lex, lit, loc⟩
    obtain rfl : k = .BangEqual := h
    rfl
  · intro l r h
    rcases l with - | (b1 | n1 | s1) <;> rcases r with - | (b2 | n2 | s2) <;>
      first
        | rfl
        | exact absurd rfl h

/-- Witness for C4: equality of a Number and a String evaluates to false
without error. -/
theorem c4_equality_never_errors_witness :
    evaluate (.Binary (.Literal (some (.Number (.finite 1)))) tok_eqeq
        (.Literal (some (.String "a")))) =
      .ok (some (.Bool (is_equal (some (.Number (.finite 1)))
        (some (.String "a"))))) :=
  c4_equality_never_errors.1 tok_eqeq (some (.Number (.finite 1)))
    (some (.String "a")) (by decide)

/-- C5: binary `+` adds two Numbers, concatenates two Strings left-then-right,
and for every other operand combination fails with the RuntimeError carrying
the operator location; the pipeline on `1 + "a";` produces that error. -/
theorem c5_plus_semantics :
    (∀ (op : Token) (x y : F64), op.kind = .Plus →
      evaluate (.Binary (.Literal (some (.Number x))) op
          (.Literal (some (.Number y)))) =
        .ok (some (.Number (F64.add x y)))) ∧
    (∀ (op : Token) (s t : String), op.kind = .Plus →
      evaluate (.Binary (.Literal (some (.String s))) op
          (.Literal (some (.String t)))) =
        .ok (some (.String (s ++ t)))) ∧
    (∀ (op : Token) (l r : Option LiteralValue), op.kind = .Plus →
      num_pair l r = false → str_pair l r = false →
      evaluate (.Binary (.Literal l) op (.Literal r)) =
        .error ⟨"Operator " ++ String.join op.lexeme ++
          " expects either two numeric or two string operands", op.loc⟩) ∧
    (scan src_mixed_plus = .ok toks_mixed_plus ∧
     parse toks_mixed_plus = .ok [.Expr tree_mixed_plus] ∧
     evaluate tree_mixed_plus = .error
       ⟨"Operator + expects either two numeric or two string operands",
         Loc.single 1⟩) := by
  refine ⟨?_, ?_, ?_, by decide, by decide, by decide⟩
  · intro op x y h
    rcases op with ⟨k, lex, lit, loc⟩
    obtain rfl : k = .Plus := h
    rfl
  · intro op s t h
    rcases op with ⟨k, lex, lit, loc⟩
    obtain rfl : k = .Plus := h
    rfl
  · intro op l r h hn hs
    rcases op with ⟨k, lex, lit, loc⟩
    obtain rfl : k = .Plus := h
    rcases l with - | (b1 | n1 | s1) <;> rcases r with - | (b2 | n2 | s2)
    all_goals try rfl
    all_goals try (simp [num_pair] at hn)
    all_goals simp [str_pair] at hs

/-- Witness for C5: `1 + nil` fails with the mixed-operand RuntimeError at
the operator location. -/
theorem c5_plus_semantics_witness :
    evaluate (.Binary (.Literal (some (.Number (.finite 1)))) tok_plus
        (.Literal none)) =
      .error ⟨"Operator + expects either two numeric or two string operands",
        Loc.single 1⟩ :=
  c5_plus_semantics.2.2.1 tok_plus (some (.Number (.finite 1))) none
    (by decide) (by decide) (by decide)

/-- C6: interpret executes the statements strictly in order and the first
statement whose execution fails aborts the batch: if every statement of
`pre` succeeds (with output `outs`) and `s` fails with `e`, then
interpreting `pre ++ s :: post` yields exactly the output of `pre` and the
error `e` — nothing of `post` (in particular no print output of `post`) is
executed. -/
theorem c6_interpret_first_error_aborts :
    ∀ pre s post outs e, interpret pre = (outs, none) → execute s = .error e →
      interpret (pre ++ s :: post) = (outs, some e) := by
  intro pre
  induction pre with
  | nil =>
      intro s post outs e hpre hs
      have h1 := congrArg Prod.fst hpre
      simp [interpret] at h1
      subst h1
      simp [interpret, hs]
  | cons p pre ih =>
      intro s post outs e hpre hs
      simp only [interpret] at hpre
      cases hp : execute p with
      | error e2 =>
          rw [hp] at hpre
          have h2 := congrArg Prod.snd hpre
          simp at h2
      | ok out =>
          rw [hp] at hpre
          cases hI : interpret pre with
          | mk outs1 err1 =>
              rw [hI] at hpre
              obtain ⟨rfl, rfl⟩ : out ++ outs1 = outs ∧ err1 = none := by
                simpa using hpre
              have := ih s post outs1 e hI hs
              simp [interpret, hp, this]

/-- Witness for C6: a successful print, then a failing mixed `+`, then a
print that is never executed: the result is the first print's output and
the error. -/
theorem c6_interpret_first_error_aborts_witness :
    interpret [.Print (num_literal 1), .Expr tree_mixed_plus,
        .Print (num_literal 2)] =
      (["1"], some ⟨"Operator + expects either two numeric or two string operands",
        Loc.single 1⟩) :=
  c6_interpret_first_error_aborts [.Print (num_literal 1)] (.Expr tree_mixed_plus)
    [.Print (num_literal 2)] ["1"]
    ⟨"Operator + expects either two numeric or two string operands", Loc.single 1⟩
    (by decide) (by decide)

/-- C9: evaluating `/` on two Number operands never produces a runtime error
(no domain check precedes the division), and division of a finite value by
zero follows IEEE 754 binary64 semantics: a positive dividend gives
infinity, a negative one negative infinity, and zero over zero is NaN. -/
theorem c9_division_never_errors :
    (∀ (op : Token) (x y : F64), op.kind = .Slash →
      evaluate (.Binary (.Literal (some (.Number x))) op
          (.Literal (some (.Number y)))) =
        .ok (some (.Number (F64.div x y)))) ∧
    (∀ q : ℚ, 0 < q → F64.div (.finite q) (.finite 0) = .inf) ∧
    (∀ q : ℚ, q < 0 → F64.div (.finite q) (.finite 0) = .negInf) ∧
    F64.div (.finite 0) (.finite 0) = .nan := by
  refine ⟨?_, ?_, ?_, rfl⟩
  · intro op x y h
    rcases op with ⟨k, lex, lit, loc⟩
    obtain rfl : k = .Slash := h
    rfl
  · intro q hq
    simp [F64.div, hq.ne', hq]
  · intro q hq
    simp [F64.div, hq.ne, hq.not_lt]

/-- Shape of every successful scan-loop result: some tokens, none of which is
Eof or a meta token, followed by exactly one final Eof token. -/
theorem scan_loop_shape :
    ∀ fuel l line ts, scan_loop fuel l line = .ok ts →
      ∃ ts0 te, ts = ts0 ++ [te] ∧ te.kind = .Eof ∧
        ∀ t ∈ ts0, t.kind ≠ .Eof ∧ t.kind ≠ .Comment ∧
          t.kind ≠ .Whitespace ∧ t.kind ≠ .NewLine := by
  intro fuel
  induction fuel with
  | zero => intro l line ts h; simp [scan_loop] at h
  | succ fuel ih =>
      intro l line ts h
      simp only [scan_loop] at h
      cases hpt : parse_token l line with
      | error e => rw [hpt] at h; cases h
      | ok tr =>
          obtain ⟨t, rest⟩ := tr
          rw [hpt] at h
          simp only at h
          by_cases hw : t.kind = .Whitespace
          · rw [if_pos hw] at h; exact ih _ _ _ h
          rw [if_neg hw] at h
          by_cases hc : t.kind = .Comment
          · rw [if_pos hc] at h; exact ih _ _ _ h
          rw [if_neg hc] at h
          by_cases hn : t.kind = .NewLine
          · rw [if_pos hn] at h; exact ih _ _ _ h
          rw [if_neg hn] at h
          by_cases he : t.kind = .Eof
          · rw [if_pos he] at h
            cases h
            exact ⟨[], t, rfl, he, by simp⟩
          · rw [if_neg he] at h
            cases hrec : scan_loop fuel rest
                (if t.loc.is_single then line else line + t.loc.offset) with
            | error e => rw [hrec] at h; cases h
            | ok ts2 =>
                rw [hrec] at h
                cases h
                obtain ⟨ts0, te, rfl, hte, hts0⟩ := ih _ _ _ hrec
                refine ⟨t :: ts0, te, rfl, hte, ?_⟩
                intro u hu
                cases hu with
                | head => exact ⟨he, hc, hw, hn⟩
                | tail _ hu2 => exact hts0 _ hu2

/-- C7: for every source on which scan succeeds, the token sequence contains
exactly one Eof token, that token is last, and no Comment, Whitespace or
NewLine token appears anywhere. -/
theorem c7_token_stream_invariants :
    ∀ src ts, scan src = .ok ts →
      ts.countP (fun t => t.kind == TokenKind.Eof) = 1 ∧
      (∃ te, ts.getLast? = some te ∧ te.kind = .Eof) ∧
      ∀ t ∈ ts, t.kind ≠ .Comment ∧ t.kind ≠ .Whitespace ∧ t.kind ≠ .NewLine := by
  intro src ts h
  obtain ⟨ts0, te, rfl, hte, hts0⟩ := scan_loop_shape _ _ _ _ h
  refine ⟨?_, ⟨te, ?_, hte⟩, ?_⟩
  · rw [List.countP_append]
    have h0 : ts0.countP (fun t => t.kind == TokenKind.Eof) = 0 := by
      rw [List.countP_eq_zero]
      intro t ht
      simpa using (hts0 t ht).1
    simp [h0, List.countP_cons, hte]
  · exact List.getLast?_concat _
  · intro t ht
    rcases List.mem_append.mp ht with h1 | h1
    · exact ⟨(hts0 t h1).2.1, (hts0 t h1).2.2.1, (hts0 t h1).2.2.2⟩
    · rw [List.mem_singleton.mp h1, hte]
      exact ⟨by decide, by decide, by decide⟩

/-- Witness for C7: the invariants instantiated on the scan of `1 + 2 * 3;`. -/
theorem c7_token_stream_invariants_witness :
    toks_arith.countP (fun t => t.kind == TokenKind.Eof) = 1 ∧
    (∃ te, toks_arith.getLast? = some te ∧ te.kind = .Eof) ∧
    ∀ t ∈ toks_arith, t.kind ≠ .Comment ∧ t.kind ≠ .Whitespace ∧
      t.kind ≠ .NewLine :=
  c7_token_stream_invariants src_arith toks_arith (by decide)

/-- Reduction of Except bind on a success, for rewriting do-blocks. -/
theorem except_bind_ok {ε α β : Type} (a : α) (f : α → Except ε β) :
    (Except.ok a >>= f) = f a := rfl

/-- Reduction of Except bind on an error, for rewriting do-blocks. -/
theorem except_bind_error {ε α β : Type} (e : ε) (f : α → Except ε β) :
    ((Except.error e : Except ε α) >>= f) = Except.error e := rfl

/-- When expect_closing_paren succeeds it consumed exactly one token. -/
theorem expect_closing_paren_consumes :
    ∀ l rest, expect_closing_paren l = .ok rest → rest.length + 1 = l.length := by
  intro l rest h
  cases l with
  | nil => cases h
  | cons t ts =>
      simp only [expect_closing_paren] at h
      by_cases hk : t.kind = .RightParen
      · rw [if_pos hk] at h; cases h; simp
      · rw [if_neg hk] at h; cases h

/-- When expect_semicolon succeeds it consumed exactly one token. -/
theorem expect_semicolon_consumes :
    ∀ l rest, expect_semicolon l = .ok rest → rest.length + 1 = l.length := by
  intro l rest h
  cases l with
  | nil => cases h
  | cons t ts =>
      simp only [expect_semicolon] at h
      by_cases hk : t.kind = .Semicolon
      · rw [if_pos hk] at h; cases h; simp
      · rw [if_neg hk] at h; cases h

/-- Every successful expression parse consumes tokens monotonically, and the
non-loop selectors consume at least one token. -/
theorem parse_expr_consumes :
    ∀ fuel lvl l e rest, parse_expr fuel lvl l = .ok (e, rest) →
      rest.length ≤ l.length ∧
      (plevel_is_loop lvl = false → rest.length < l.length) := by
  intro fuel
  induction fuel with
  | zero => intro lvl l e rest h; simp [parse_expr] at h
  | succ fuel ih =>
      intro lvl l e rest h
      cases lvl with
      | expression =>
          simp only [parse_expr] at h
          obtain ⟨h1, h2⟩ := ih _ _ _ _ h
          exact ⟨h1, fun _ => h2 rfl⟩
      | equality =>
          simp only [parse_expr] at h
          cases h1 : parse_expr fuel .comparison l with
          | error e1 => rw [h1] at h; rw [except_bind_error] at h; cases h
          | ok p1 =>
              obtain ⟨left, rest1⟩ := p1
              rw [h1, except_bind_ok] at h
              simp only at h
              have hA := (ih _ _ _ _ h).1
              have hB := (ih _ _ _ _ h1).2 rfl
              exact ⟨le_trans hA (le_of_lt hB), fun _ => lt_of_le_of_lt hA hB⟩
      | comparison =>
          simp only [parse_expr] at h
          cases h1 : parse_expr fuel .term l with
          | error e1 => rw [h1] at h; rw [except_bind_error] at h; cases h
          | ok p1 =>
              obtain ⟨left, rest1⟩ := p1
              rw [h1, except_bind_ok] at h
              simp only at h
              have hA := (ih _ _ _ _ h).1
              have hB := (ih _ _ _ _ h1).2 rfl
              exact ⟨le_trans hA (le_of_lt hB), fun _ => lt_of_le_of_lt hA hB⟩
      | term =>
          simp only [parse_expr] at h
          cases h1 : parse_expr fuel .factor l with
          | error e1 => rw [h1] at h; rw [except_bind_error] at h; cases h
          | ok p1 =>
              obtain ⟨left, rest1⟩ := p1
              rw [h1, except_bind_ok] at h
              simp only at h
              have hA := (ih _ _ _ _ h).1
              have hB := (ih _ _ _ _ h1).2 rfl
              exact ⟨le_trans hA (le_of_lt hB), fun _ => lt_of_le_of_lt hA hB⟩
      | factor =>
          simp only [parse_expr] at h
          cases h1 : parse_expr fuel .unary l with
          | error e1 => rw [h1] at h; rw [except_bind_error] at h; cases h
          | ok p1 =>
              obtain ⟨left, rest1⟩ := p1
              rw [h1, except_bind_ok] at h
              simp only at h
              have hA := (ih _ _ _ _ h).1
              have hB := (ih _ _ _ _ h1).2 rfl
              exact ⟨le_trans hA (le_of_lt hB), fun _ => lt_of_le_of_lt hA hB⟩
      | equalityLoop left =>
          simp only [parse_expr] at h
          cases l with
          | nil =>
              cases h
              exact ⟨le_refl _, fun hf => by simp [plevel_is_loop] at hf⟩
          | cons op rest1 =>
              simp only at h
              by_cases hop : is_equality_op op.kind = true
              · rw [if_pos hop] at h
                cases h1 : parse_expr fuel .comparison rest1 with
                | error e1 => rw [h1] at h; rw [except_bind_error] at h; cases h
                | ok p1 =>
                    obtain ⟨right, rest2⟩ := p1
                    rw [h1, except_bind_ok] at h
                    simp only at h
                    have hA := (ih _ _ _ _ h).1
                    have hB := (ih _ _ _ _ h1).2 rfl
                    constructor
                    · simp only [List.length_cons]; omega
                    · intro hf; simp [plevel_is_loop] at hf
              · rw [if_neg hop] at h
                cases h
                exact ⟨le_refl _, fun hf => by simp [plevel_is_loop] at hf⟩
      | comparisonLoop left =>
          simp only [parse_expr] at h
          cases l with
          | nil =>
              cases h
              exact ⟨le_refl _, fun hf => by simp [plevel_is_loop] at hf⟩
          | cons op rest1 =>
              simp only at h
              by_cases hop : is_comparison_op op.kind = true
              · rw [if_pos hop] at h
                cases h1 : parse_expr fuel .term rest1 with
                | error e1 => rw [h1] at h; rw [except_bind_error] at h; cases h
                | ok p1 =>
                    obtain ⟨right, rest2⟩ := p1
                    rw [h1, except_bind_ok] at h
                    simp only at h
                    have hA := (ih _ _ _ _ h).1
                    have hB := (ih _ _ _ _ h1).2 rfl
                    constructor
                    · simp only [List.length_cons]; omega
                    · intro hf; simp [plevel_is_loop] at hf
              · rw [if_neg hop] at h
                cases h
                exact ⟨le_refl _, fun hf => by simp [plevel_is_loop] at hf⟩
      | termLoop left =>
          simp only [parse_expr] at h
          cases l with
          | nil =>
              cases h
              exact ⟨le_refl _, fun hf => by simp [plevel_is_loop] at hf⟩
          | cons op rest1 =>
              simp only at h
              by_cases hop : is_term_op op.kind = true
              · rw [if_pos hop] at h
                cases h1 : parse_expr fuel .factor rest1 with
                | error e1 => rw [h1] at h; rw [except_bind_error] at h; cases h
                | ok p1 =>
                    obtain ⟨right, rest2⟩ := p1
                    rw [h1, except_bind_ok] at h
                    simp only at h
                    have hA := (ih _ _ _ _ h).1
                    have hB := (ih _ _ _ _ h1).2 rfl
                    constructor
                    · simp only [List.length_cons]; omega
                    · intro hf; simp [plevel_is_loop] at hf
              · rw [if_neg hop] at h
                cases h
                exact ⟨le_refl _, fun hf => by simp [plevel_is_loop] at hf⟩
      | factorLoop left =>
          simp only [parse_expr] at h
          cases l with
          | nil =>
              cases h
              exact ⟨le_refl _, fun hf => by simp [plevel_is_loop] at hf⟩
          | cons op rest1 =>
              simp only at h
              by_cases hop : is_factor_op op.kind = true
              · rw [if_pos hop] at h
                cases h1 : parse_expr fuel .unary rest1 with
                | error e1 => rw [h1] at h; rw [except_bind_error] at h; cases h
                | ok p1 =>
                    obtain ⟨right, rest2⟩ := p1
                    rw [h1, except_bind_ok] at h
                    simp only at h
                    have hA := (ih _ _ _ _ h).1
                    have hB := (ih _ _ _ _ h1).2 rfl
                    constructor
                    · simp only [List.length_cons]; omega
                    · intro hf; simp [plevel_is_loop] at hf
              · rw [if_neg hop] at h
                cases h
                exact ⟨le_refl _, fun hf => by simp [plevel_is_loop] at hf⟩
      | unary =>
          simp only [parse_expr] at h
          cases l with
          | nil =>
              have := (ih _ _ _ _ h).2 rfl
              simp at this
          | cons op rest1 =>
              simp only at h
              by_cases hop : is_unary_op op.kind = true
              · rw [if_pos hop] at h
                cases h1 : parse_expr fuel .unary rest1 with
                | error e1 => rw [h1] at h; rw [except_bind_error] at h; cases h
                | ok p1 =>
                    obtain ⟨right, rest2⟩ := p1
                    rw [h1, except_bind_ok] at h
                    simp only at h
                    cases h
                    have hB := (ih _ _ _ _ h1).2 rfl
                    constructor
                    · simp only [List.length_cons]; omega
                    · intro hf; simp only [List.length_cons]; omega
              · rw [if_neg hop] at h
                obtain ⟨h1, h2⟩ := ih _ _ _ _ h
                exact ⟨h1, fun _ => h2 rfl⟩
      | primary =>
          simp only [parse_expr] at h
          cases l with
          | nil => cases h
          | cons t rest1 =>
              simp only at h
              by_cases hlit : is_literal_kind t.kind = true
              · rw [if_pos hlit] at h
                cases h
                constructor
                · simp
                · intro hf; simp
              · rw [if_neg hlit] at h
                by_cases hlp : t.kind = .LeftParen
                · rw [if_pos hlp] at h
                  cases h1 : parse_expr fuel .expression rest1 with
                  | error e1 => rw [h1] at h; rw [except_bind_error] at h; cases h
                  | ok p1 =>
                      obtain ⟨e2, rest2⟩ := p1
                      rw [h1, except_bind_ok] at h
                      simp only at h
                      cases h2 : expect_closing_paren rest2 with
                      | error e3 =>
                          rw [h2] at h; rw [except_bind_error] at h; cases h
                      | ok rest3 =>
                          rw [h2, except_bind_ok] at h
                          cases h
                          have hB := (ih _ _ _ _ h1).2 rfl
                          have hC := expect_closing_paren_consumes _ _ h2
                          constructor
                          · simp only [List.length_cons]; omega
                          · intro hf; simp only [List.length_cons]; omega
                · rw [if_neg hlp] at h
                  by_cases heof : t.kind = .Eof
                  · rw [if_pos heof] at h; cases h
                  · rw [if_neg heof] at h; cases h

/-- Consuming a non-Eof head token preserves the Eof-terminated shape. -/
theorem eof_last_cons :
    ∀ t rest, eof_last (t :: rest) = true → t.kind ≠ .Eof →
      eof_last rest = true := by
  intro t rest h hne
  cases rest with
  | nil =>
      exfalso
      apply hne
      simpa [eof_last] using h
  | cons r rs => simpa [eof_last] using h

/-- expect_closing_paren never exhausts fuel (it consumes no fuel). -/
theorem expect_closing_paren_not_fuelOut :
    ∀ l, expect_closing_paren l ≠ .error .fuelOut := by
  intro l h
  cases l with
  | nil => cases h
  | cons t ts =>
      simp only [expect_closing_paren] at h
      by_cases hk : t.kind = .RightParen
      · rw [if_pos hk] at h; cases h
      · rw [if_neg hk] at h; cases h

/-- expect_semicolon never exhausts fuel (it consumes no fuel). -/
theorem expect_semicolon_not_fuelOut :
    ∀ l, expect_semicolon l ≠ .error .fuelOut := by
  intro l h
  cases l with
  | nil => cases h
  | cons t ts =>
      simp only [expect_semicolon] at h
      by_cases hk : t.kind = .Semicolon
      · rw [if_pos hk] at h; cases h
      · rw [if_neg hk] at h; cases h

/-- With fuel at least eight units per remaining token plus the selector
rank, the expression parser never exhausts its fuel. -/
theorem parse_expr_no_fuelOut :
    ∀ fuel lvl l, 8 * l.length + plevel_rank lvl ≤ fuel →
      parse_expr fuel lvl l ≠ .error .fuelOut := by
  intro fuel
  induction fuel with
  | zero =>
      intro lvl l hle h
      have h1 : 1 ≤ plevel_rank lvl := by cases lvl <;> simp [plevel_rank]
      omega
  | succ fuel ih =>
      intro lvl l hle h
      cases lvl with
      | expression =>
          simp only [parse_expr] at h
          exact ih .equality l (by simp [plevel_rank] at hle ⊢; omega) h
      | equality =>
          simp only [parse_expr] at h
          cases h1 : parse_expr fuel .comparison l with
          | error e1 =>
              rw [h1, except_bind_error] at h
              cases h
              exact ih .comparison l (by simp [plevel_rank] at hle ⊢; omega) h1
          | ok p1 =>
              obtain ⟨left, rest1⟩ := p1
              rw [h1, except_bind_ok] at h
              simp only at h
              have hc := (parse_expr_consumes _ _ _ _ _ h1).2 rfl
              exact ih (.equalityLoop left) rest1
                (by simp [plevel_rank] at hle ⊢; omega) h
      | comparison =>
          simp only [parse_expr] at h
          cases h1 : parse_expr fuel .term l with
          | error e1 =>
              rw [h1, except_bind_error] at h
              cases h
              exact ih .term l (by simp [plevel_rank] at hle ⊢; omega) h1
          | ok p1 =>
              obtain ⟨left, rest1⟩ := p1
              rw [h1, except_bind_ok] at h
              simp only at h
              have hc := (parse_expr_consumes _ _ _ _ _ h1).2 rfl
              exact ih (.comparisonLoop left) rest1
                (by simp [plevel_rank] at hle ⊢; omega) h
      | term =>
          simp only [parse_expr] at h
          cases h1 : parse_expr fuel .factor l with
          | error e1 =>
              rw [h1, except_bind_error] at h
              cases h
              exact ih .factor l (by simp [plevel_rank] at hle ⊢; omega) h1
          | ok p1 =>
              obtain ⟨left, rest1⟩ := p1
              rw [h1, except_bind_ok] at h
              simp only at h
              have hc := (parse_expr_consumes _ _ _ _ _ h1).2 rfl
              exact ih (.termLoop left) rest1
                (by simp [plevel_rank] at hle ⊢; omega) h
      | factor =>
          simp only [parse_expr] at h
          cases h1 : parse_expr fuel .unary l with
          | error e1 =>
              rw [h1, except_bind_error] at h
              cases h
              exact ih .unary l (by simp [plevel_rank] at hle ⊢; omega) h1
          | ok p1 =>
              obtain ⟨left, rest1⟩ := p1
              rw [h1, except_bind_ok] at h
              simp only at h
              have hc := (parse_expr_consumes _ _ _ _ _ h1).2 rfl
              exact ih (.factorLoop left) rest1
                (by simp [plevel_rank] at hle ⊢; omega) h
      | equalityLoop left =>
          simp only [parse_expr] at h
          cases l with
          | nil => cases h
          | cons op rest1 =>
              simp only at h
              by_cases hop : is_equality_op op.kind = true
              · rw [if_pos hop] at h
                cases h1 : parse_expr fuel .comparison rest1 with
                | error e1 =>
                    rw [h1, except_bind_error] at h
                    cases h
                    exact ih .comparison rest1
                      (by simp [plevel_rank, List.length_cons] at hle ⊢; omega) h1
                | ok p1 =>
                    obtain ⟨right, rest2⟩ := p1
                    rw [h1, except_bind_ok] at h
                    simp only at h
                    have hc := (parse_expr_consumes _ _ _ _ _ h1).2 rfl
                    exact ih (.equalityLoop (.Binary left op right)) rest2
                      (by simp [plevel_rank, List.length_cons] at hle ⊢; omega) h
              · rw [if_neg hop] at h
                cases h
      | comparisonLoop left =>
          simp only [parse_expr] at h
          cases l with
          | nil => cases h
          | cons op rest1 =>
              simp only at h
              by_cases hop : is_comparison_op op.kind = true
              · rw [if_pos hop] at h
                cases h1 : parse_expr fuel .term rest1 with
                | error e1 =>
                    rw [h1, except_bind_error] at h
                    cases h
                    exact ih .term rest1
                      (by simp [plevel_rank, List.length_cons] at hle ⊢; omega) h1
                | ok p1 =>
                    obtain ⟨right, rest2⟩ := p1
                    rw [h1, except_bind_ok] at h
                    simp only at h
                    have hc := (parse_expr_consumes _ _ _ _ _ h1).2 rfl
                    exact ih (.comparisonLoop (.Binary left op right)) rest2
                      (by simp [plevel_rank, List.length_cons] at hle ⊢; omega) h
              · rw [if_neg hop] at h
                cases h
      | termLoop left =>
          simp only [parse_expr] at h
          cases l with
          | nil => cases h
          | cons op rest1 =>
              simp only at h
              by_cases hop : is_term_op op.kind = true
              · rw [if_pos hop] at h
                cases h1 : parse_expr fuel .factor rest1 with
                | error e1 =>
                    rw [h1, except_bind_error] at h
                    cases h
                    exact ih .factor rest1
                      (by simp [plevel_rank, List.length_cons] at hle ⊢; omega) h1
                | ok p1 =>
                    obtain ⟨right, rest2⟩ := p1
                    rw [h1, except_bind_ok] at h
                    simp only at h
                    have hc := (parse_expr_consumes _ _ _ _ _ h1).2 rfl
                    exact ih (.termLoop (.Binary left op right)) rest2
                      (by simp [plevel_rank, List.length_cons] at hle ⊢; omega) h
              · rw [if_neg hop] at h
                cases h
      | factorLoop left =>
          simp only [parse_expr] at h
          cases l with
          | nil => cases h
          | cons op rest1 =>
              simp only at h
              by_cases hop : is_factor_op op.kind = true
              · rw [if_pos hop] at h
                cases h1 : parse_expr fuel .unary rest1 with
                | error e1 =>
                    rw [h1, except_bind_error] at h
                    cases h
                    exact ih .unary rest1
                      (by simp [plevel_rank, List.length_cons] at hle ⊢; omega) h1
                | ok p1 =>
                    obtain ⟨right, rest2⟩ := p1
                    rw [h1, except_bind_ok] at h
                    simp only at h
                    have hc := (parse_expr_consumes _ _ _ _ _ h1).2 rfl
                    exact ih (.factorLoop (.Binary left op right)) rest2
                      (by simp [plevel_rank, List.length_cons] at hle ⊢; omega) h
              · rw [if_neg hop] at h
                cases h
      | unary =>
          simp only [parse_expr] at h
          cases l with
          | nil =>
              exact ih .primary []
                (by simp [plevel_rank] at hle ⊢; omega) h
          | cons op rest1 =>
              simp only at h
              by_cases hop : is_unary_op op.kind = true
              · rw [if_pos hop] at h
                cases h1 : parse_expr fuel .unary rest1 with
                | error e1 =>
                    rw [h1, except_bind_error] at h
                    cases h
                    exact ih .unary rest1
                      (by simp [plevel_rank, List.length_cons] at hle ⊢; omega) h1
                | ok p1 =>
                    obtain ⟨right, rest2⟩ := p1
                    rw [h1, except_bind_ok] at h
                    simp only at h
                    cases h
              · rw [if_neg hop] at h
                exact ih .primary (op :: rest1)
                  (by simp [plevel_rank, List.length_cons] at hle ⊢; omega) h
      | primary =>
          simp only [parse_expr] at h
          cases l with
          | nil => cases h
          | cons t rest1 =>
              simp only at h
              by_cases hlit : is_literal_kind t.kind = true
              · rw [if_pos hlit] at h
                cases h
              · rw [if_neg hlit] at h
                by_cases hlp : t.kind = .LeftParen
                · rw [if_pos hlp] at h
                  cases h1 : parse_expr fuel .expression rest1 with
                  | error e1 =>
                      rw [h1, except_bind_error] at h
                      cases h
                      exact ih .expression rest1
                        (by simp [plevel_rank, List.length_cons] at hle ⊢; omega) h1
                  | ok p1 =>
                      obtain ⟨e2, rest2⟩ := p1
                      rw [h1, except_bind_ok] at h
                      simp only at h
                      cases h2 : expect_closing_paren rest2 with
                      | error e3 =>
                          rw [h2, except_bind_error] at h
                          cases h
                          exact expect_closing_paren_not_fuelOut rest2 h2
                      | ok rest3 =>
                          rw [h2, except_bind_ok] at h
                          cases h
                · rw [if_neg hlp] at h
                  by_cases heof : t.kind = .Eof
                  · rw [if_pos heof] at h; cases h
                  · rw [if_neg heof] at h; cases h

/-- A successful expression statement consumed at least two tokens (the
expression and the semicolon). -/
theorem expression_statement_consumes :
    ∀ fuel l s rest, expression_statement fuel l = .ok (s, rest) →
      rest.length + 2 ≤ l.length := by
  intro fuel l s rest h
  simp only [expression_statement] at h
  cases h1 : parse_expr fuel .expression l with
  | error e1 => rw [h1, except_bind_error] at h; cases h
  | ok p1 =>
      obtain ⟨e, rest1⟩ := p1
      rw [h1, except_bind_ok] at h
      simp only at h
      cases h2 : expect_semicolon rest1 with
      | error e2 => rw [h2, except_bind_error] at h; cases h
      | ok rest2 =>
          rw [h2, except_bind_ok] at h
          cases h
          have hA := (parse_expr_consumes _ _ _ _ _ h1).2 rfl
          have hB := expect_semicolon_consumes _ _ h2
          omega

/-- A successful print statement consumed at least two tokens. -/
theorem print_statement_consumes :
    ∀ fuel l s rest, print_statement fuel l = .ok (s, rest) →
      rest.length + 2 ≤ l.length := by
  intro fuel l s rest h
  simp only [print_statement] at h
  cases h1 : parse_expr fuel .expression l with
  | error e1 => rw [h1, except_bind_error] at h; cases h
  | ok p1 =>
      obtain ⟨e, rest1⟩ := p1
      rw [h1, except_bind_ok] at h
      simp only at h
      cases h2 : expect_semicolon rest1 with
      | error e2 => rw [h2, except_bind_error] at h; cases h
      | ok rest2 =>
          rw [h2, except_bind_ok] at h
          cases h
          have hA := (parse_expr_consumes _ _ _ _ _ h1).2 rfl
          have hB := expect_semicolon_consumes _ _ h2
          omega

/-- expression_statement never exhausts fuel when given enough for its
expression. -/
theorem expression_statement_no_fuelOut :
    ∀ fuel l, 8 * l.length + 7 ≤ fuel →
      expression_statement fuel l ≠ .error .fuelOut := by
  intro fuel l hle h
  simp only [expression_statement] at h
  cases h1 : parse_expr fuel .expression l with
  | error e1 =>
      rw [h1, except_bind_error] at h
      cases h
      exact parse_expr_no_fuelOut fuel .expression l
        (by simp [plevel_rank]; omega) h1
  | ok p1 =>
      obtain ⟨e, rest1⟩ := p1
      rw [h1, except_bind_ok] at h
      simp only at h
      cases h2 : expect_semicolon rest1 with
      | error e2 =>
          rw [h2, except_bind_error] at h
          cases h
          exact expect_semicolon_not_fuelOut rest1 h2
      | ok rest2 =>
          rw [h2, except_bind_ok] at h
          cases h

/-- print_statement never exhausts fuel when given enough for its
expression. -/
theorem print_statement_no_fuelOut :
    ∀ fuel l, 8 * l.length + 7 ≤ fuel →
      print_statement fuel l ≠ .error .fuelOut := by
  intro fuel l hle h
  simp only [print_statement] at h
  cases h1 : parse_expr fuel .expression l with
  | error e1 =>
      rw [h1, except_bind_error] at h
      cases h
      exact parse_expr_no_fuelOut fuel .expression l
        (by simp [plevel_rank]; omega) h1
  | ok p1 =>
      obtain ⟨e, rest1⟩ := p1
      rw [h1, except_bind_ok] at h
      simp only at h
      cases h2 : expect_semicolon rest1 with
      | error e2 =>
          rw [h2, except_bind_error] at h
          cases h
          exact expect_semicolon_not_fuelOut rest1 h2
      | ok rest2 =>
          rw [h2, except_bind_ok] at h
          cases h

/-- The statement loop never exhausts fuel when given eight units per token
plus nine. -/
theorem parse_loop_no_fuelOut :
    ∀ fuel l, 8 * l.length + 9 ≤ fuel → parse_loop fuel l ≠ .error .fuelOut := by
  intro fuel
  induction fuel with
  | zero => intro l hle h; omega
  | succ fuel ih =>
      intro l hle h
      simp only [parse_loop] at h
      cases l with
      | nil =>
          simp only at h
          cases h1 : expression_statement fuel [] with
          | error e1 =>
              rw [h1, except_bind_error] at h
              cases h
              exact expression_statement_no_fuelOut fuel []
                (by simp; omega) h1
          | ok p1 =>
              obtain ⟨s, rest⟩ := p1
              have hc := expression_statement_consumes _ _ _ _ h1
              simp at hc
      | cons t rest0 =>
          simp only at h
          by_cases he : t.kind = .Eof
          · rw [if_pos he] at h; cases h
          rw [if_neg he] at h
          by_cases hp : t.kind = .Print
          · rw [if_pos hp] at h
            cases h1 : print_statement fuel rest0 with
            | error e1 =>
                rw [h1, except_bind_error] at h
                cases h
                exact print_statement_no_fuelOut fuel rest0
                  (by simp [List.length_cons] at hle; omega) h1
            | ok p1 =>
                obtain ⟨s, rest⟩ := p1
                rw [h1, except_bind_ok] at h
                simp only at h
                cases h2 : parse_loop fuel rest with
                | error e2 =>
                    rw [h2, except_bind_error] at h
                    cases h
                    have hc := print_statement_consumes _ _ _ _ h1
                    exact ih rest
                      (by simp [List.length_cons] at hle; omega) h2
                | ok ss =>
                    rw [h2, except_bind_ok] at h
                    cases h
          · rw [if_neg hp] at h
            cases h1 : expression_statement fuel (t :: rest0) with
            | error e1 =>
                rw [h1, except_bind_error] at h
                cases h
                exact expression_statement_no_fuelOut fuel (t :: rest0)
                  (by simp [List.length_cons] at hle ⊢; omega) h1
            | ok p1 =>
                obtain ⟨s, rest⟩ := p1
                rw [h1, except_bind_ok] at h
                simp only at h
                cases h2 : parse_loop fuel rest with
                | error e2 =>
                    rw [h2, except_bind_error] at h
                    cases h
                    have hc := expression_statement_consumes _ _ _ _ h1
                    exact ih rest
                      (by simp [List.length_cons] at hle hc; omega) h2
                | ok ss =>
                    rw [h2, except_bind_ok] at h
                    cases h

/-- Safety of an error outcome does not depend on the success predicate. -/
theorem pfail_safe_error {α β : Type} (f : α → Prop) (g : β → Prop) (e : PFail)
    (h : pfail_safe f (.error e)) : pfail_safe g (.error e) := by
  cases e with
  | panicked => exact h.elim
  | perr e2 => trivial
  | fuelOut => trivial

/-- On an Eof-terminated list expect_closing_paren cannot panic and leaves an
Eof-terminated list on success. -/
theorem expect_closing_paren_safe :
    ∀ l, eof_last l = true →
      pfail_safe (fun rest => eof_last rest = true) (expect_closing_paren l) := by
  intro l hl
  cases l with
  | nil => simp [eof_last] at hl
  | cons t ts =>
      simp only [expect_closing_paren]
      by_cases hk : t.kind = .RightParen
      · rw [if_pos hk]
        exact eof_last_cons t ts hl (by rw [hk]; intro hh; cases hh)
      · rw [if_neg hk]
        trivial

/-- On an Eof-terminated list expect_semicolon cannot panic and leaves an
Eof-terminated list on success. -/
theorem expect_semicolon_safe :
    ∀ l, eof_last l = true →
      pfail_safe (fun rest => eof_last rest = true) (expect_semicolon l) := by
  intro l hl
  cases l with
  | nil => simp [eof_last] at hl
  | cons t ts =>
      simp only [expect_semicolon]
      by_cases hk : t.kind = .Semicolon
      · rw [if_pos hk]
        exact eof_last_cons t ts hl (by rw [hk]; intro hh; cases hh)
      · rw [if_neg hk]
        trivial

/-- On an Eof-terminated token list the expression parser never reaches a
panic branch, and on success the remaining tokens are still
Eof-terminated. -/
theorem parse_expr_no_panic :
    ∀ fuel lvl l, eof_last l = true →
      pfail_safe (fun p : Expr × List Token => eof_last p.2 = true)
        (parse_expr fuel lvl l) := by
  intro fuel
  induction fuel with
  | zero => intro lvl l hl; trivial
  | succ fuel ih =>
      intro lvl l hl
      cases lvl with
      | expression =>
          simp only [parse_expr]
          exact ih .equality l hl
      | equality =>
          simp only [parse_expr]
          cases h1 : parse_expr fuel .comparison l with
          | error e1 =>
              rw [except_bind_error]
              have := ih .comparison l hl
              rw [h1] at this
              exact this
          | ok p1 =>
              obtain ⟨left, rest1⟩ := p1
              have hrest1 : eof_last rest1 = true := by
                have := ih .comparison l hl
                rw [h1] at this
                exact this
              rw [except_bind_ok]
              simp only
              exact ih (.equalityLoop left) rest1 hrest1
      | comparison =>
          simp only [parse_expr]
          cases h1 : parse_expr fuel .term l with
          | error e1 =>
              rw [except_bind_error]
              have := ih .term l hl
              rw [h1] at this
              exact this
          | ok p1 =>
              obtain ⟨left, rest1⟩ := p1
              have hrest1 : eof_last rest1 = true := by
                have := ih .term l hl
                rw [h1] at this
                exact this
              rw [except_bind_ok]
              simp only
              exact ih (.comparisonLoop left) rest1 hrest1
      | term =>
          simp only [parse_expr]
          cases h1 : parse_expr fuel .factor l with
          | error e1 =>
              rw [except_bind_error]
              have := ih .factor l hl
              rw [h1] at this
              exact this
          | ok p1 =>
              obtain ⟨left, rest1⟩ := p1
              have hrest1 : eof_last rest1 = true := by
                have := ih .factor l hl
                rw [h1] at this
                exact this
              rw [except_bind_ok]
              simp only
              exact ih (.termLoop left) rest1 hrest1
      | factor =>
          simp only [parse_expr]
          cases h1 : parse_expr fuel .unary l with
          | error e1 =>
              rw [except_bind_error]
              have := ih .unary l hl
              rw [h1] at this
              exact this
          | ok p1 =>
              obtain ⟨left, rest1⟩ := p1
              have hrest1 : eof_last rest1 = true := by
                have := ih .unary l hl
                rw [h1] at this
                exact this
              rw [except_bind_ok]
              simp only
              exact ih (.factorLoop left) rest1 hrest1
      | equalityLoop left =>
          simp only [parse_expr]
          cases l with
          | nil => simp [eof_last] at hl
          | cons op rest1 =>
              simp only
              by_cases hop : is_equality_op op.kind = true
              · rw [if_pos hop]
                have hrest1 : eof_last rest1 = true :=
                  eof_last_cons op rest1 hl
                    (by intro hk; rw [hk] at hop; simp [is_equality_op] at hop)
                cases h1 : parse_expr fuel .comparison rest1 with
                | error e1 =>
                    rw [except_bind_error]
                    have := ih .comparison rest1 hrest1
                    rw [h1] at this
                    exact this
                | ok p1 =>
                    obtain ⟨right, rest2⟩ := p1
                    have hrest2 : eof_last rest2 = true := by
                      have := ih .comparison rest1 hrest1
                      rw [h1] at this
                      exact this
                    rw [except_bind_ok]
                    simp only
                    exact ih (.equalityLoop (.Binary left op right)) rest2 hrest2
              · rw [if_neg hop]
                exact hl
      | comparisonLoop left =>
          simp only [parse_expr]
          cases l with
          | nil => simp [eof_last] at hl
          | cons op rest1 =>
              simp only
              by_cases hop : is_comparison_op op.kind = true
              · rw [if_pos hop]
                have hrest1 : eof_last rest1 = true :=
                  eof_last_cons op rest1 hl
                    (by intro hk; rw [hk] at hop; simp [is_comparison_op] at hop)
                cases h1 : parse_expr fuel .term rest1 with
                | error e1 =>
                    rw [except_bind_error]
                    have := ih .term rest1 hrest1
                    rw [h1] at this
                    exact this
                | ok p1 =>
                    obtain ⟨right, rest2⟩ := p1
                    have hrest2 : eof_last rest2 = true := by
                      have := ih .term rest1 hrest1
                      rw [h1] at this
                      exact this
                    rw [except_bind_ok]
                    simp only
                    exact ih (.comparisonLoop (.Binary left op right)) rest2 hrest2
              · rw [if_neg hop]
                exact hl
      | termLoop left =>
          simp only [parse_expr]
          cases l with
          | nil => simp [eof_last] at hl
          | cons op rest1 =>
              simp only
              by_cases hop : is_term_op op.kind = true
              · rw [if_pos hop]
                have hrest1 : eof_last rest1 = true :=
                  eof_last_cons op rest1 hl
                    (by intro hk; rw [hk] at hop; simp [is_term_op] at hop)
                cases h1 : parse_expr fuel .factor rest1 with
                | error e1 =>
                    rw [except_bind_error]
                    have := ih .factor rest1 hrest1
                    rw [h1] at this
                    exact this
                | ok p1 =>
                    obtain ⟨right, rest2⟩ := p1
                    have hrest2 : eof_last rest2 = true := by
                      have := ih .factor rest1 hrest1
                      rw [h1] at this
                      exact this
                    rw [except_bind_ok]
                    simp only
                    exact ih (.termLoop (.Binary left op right)) rest2 hrest2
              · rw [if_neg hop]
                exact hl
      | factorLoop left =>
          simp only [parse_expr]
          cases l with
          | nil => simp [eof_last] at hl
          | cons op rest1 =>
              simp only
              by_cases hop : is_factor_op op.kind = true
              · rw [if_pos hop]
                have hrest1 : eof_last rest1 = true :=
                  eof_last_cons op rest1 hl
                    (by intro hk; rw [hk] at hop; simp [is_factor_op] at hop)
                cases h1 : parse_expr fuel .unary rest1 with
                | error e1 =>
                    rw [except_bind_error]
                    have := ih .unary rest1 hrest1
                    rw [h1] at this
                    exact this
                | ok p1 =>
                    obtain ⟨right, rest2⟩ := p1
                    have hrest2 : eof_last rest2 = true := by
                      have := ih .unary rest1 hrest1
                      rw [h1] at this
                      exact this
                    rw [except_bind_ok]
                    simp only
                    exact ih (.factorLoop (.Binary left op right)) rest2 hrest2
              · rw [if_neg hop]
                exact hl
      | unary =>
          simp only [parse_expr]
          cases l with
          | nil => simp [eof_last] at hl
          | cons op rest1 =>
              simp only
              by_cases hop : is_unary_op op.kind = true
              · rw [if_pos hop]
                have hrest1 : eof_last rest1 = true :=
                  eof_last_cons op rest1 hl
                    (by intro hk; rw [hk] at hop; simp [is_unary_op] at hop)
                cases h1 : parse_expr fuel .unary rest1 with
                | error e1 =>
                    rw [except_bind_error]
                    have := ih .unary rest1 hrest1
                    rw [h1] at this
                    exact this
                | ok p1 =>
                    obtain ⟨right, rest2⟩ := p1
                    have hrest2 : eof_last rest2 = true := by
                      have := ih .unary rest1 hrest1
                      rw [h1] at this
                      exact this
                    rw [except_bind_ok]
                    simp only
                    exact hrest2
              · rw [if_neg hop]
                exact ih .primary (op :: rest1) hl
      | primary =>
          simp only [parse_expr]
          cases l with
          | nil => simp [eof_last] at hl
          | cons t rest1 =>
              simp only
              by_cases hlit : is_literal_kind t.kind = true
              · rw [if_pos hlit]
                exact eof_last_cons t rest1 hl
                  (by intro hk; rw [hk] at hlit; simp [is_literal_kind] at hlit)
              · rw [if_neg hlit]
                by_cases hlp : t.kind = .LeftParen
                · rw [if_pos hlp]
                  have hrest1 : eof_last rest1 = true :=
                    eof_last_cons t rest1 hl (by rw [hlp]; intro hh; cases hh)
                  cases h1 : parse_expr fuel .expression rest1 with
                  | error e1 =>
                      rw [except_bind_error]
                      have := ih .expression rest1 hrest1
                      rw [h1] at this
                      exact this
                  | ok p1 =>
                      obtain ⟨e2, rest2⟩ := p1
                      have hrest2 : eof_last rest2 = true := by
                        have := ih .expression rest1 hrest1
                        rw [h1] at this
                        exact this
                      rw [except_bind_ok]
                      simp only
                      cases h2 : expect_closing_paren rest2 with
                      | error e3 =>
                          rw [except_bind_error]
                          have := expect_closing_paren_safe rest2 hrest2
                          rw [h2] at this
                          exact pfail_safe_error _ _ _ this
                      | ok rest3 =>
                          have hrest3 : eof_last rest3 = true := by
                            have := expect_closing_paren_safe rest2 hrest2
                            rw [h2] at this
                            exact this
                          rw [except_bind_ok]
                          exact hrest3
                · rw [if_neg hlp]
                  by_cases heof : t.kind = .Eof
                  · rw [if_pos heof]
                    trivial
                  · rw [if_neg heof]
                    trivial

/-- On an Eof-terminated list expression_statement cannot panic and leaves an
Eof-terminated list on success. -/
theorem expression_statement_no_panic :
    ∀ fuel l, eof_last l = true →
      pfail_safe (fun p : Stmt × List Token => eof_last p.2 = true)
        (expression_statement fuel l) := by
  intro fuel l hl
  simp only [expression_statement]
  cases h1 : parse_expr fuel .expression l with
  | error e1 =>
      rw [except_bind_error]
      have := parse_expr_no_panic fuel .expression l hl
      rw [h1] at this
      exact pfail_safe_error _ _ _ this
  | ok p1 =>
      obtain ⟨e, rest1⟩ := p1
      have hrest1 : eof_last rest1 = true := by
        have := parse_expr_no_panic fuel .expression l hl
        rw [h1] at this
        exact this
      rw [except_bind_ok]
      simp only
      cases h2 : expect_semicolon rest1 with
      | error e2 =>
          rw [except_bind_error]
          have := expect_semicolon_safe rest1 hrest1
          rw [h2] at this
          exact pfail_safe_error _ _ _ this
      | ok rest2 =>
          have hrest2 : eof_last rest2 = true := by
            have := expect_semicolon_safe rest1 hrest1
            rw [h2] at this
            exact this
          rw [except_bind_ok]
          exact hrest2

/-- On an Eof-terminated list print_statement cannot panic and leaves an
Eof-terminated list on success. -/
theorem print_statement_no_panic :
    ∀ fuel l, eof_last l = true →
      pfail_safe (fun p : Stmt × List Token => eof_last p.2 = true)
        (print_statement fuel l) := by
  intro fuel l hl
  simp only [print_statement]
  cases h1 : parse_expr fuel .expression l with
  | error e1 =>
      rw [except_bind_error]
      have := parse_expr_no_panic fuel .expression l hl
      rw [h1] at this
      exact pfail_safe_error _ _ _ this
  | ok p1 =>
      obtain ⟨e, rest1⟩ := p1
      have hrest1 : eof_last rest1 = true := by
        have := parse_expr_no_panic fuel .expression l hl
        rw [h1] at this
        exact this
      rw [except_bind_ok]
      simp only
      cases h2 : expect_semicolon rest1 with
      | error e2 =>
          rw [except_bind_error]
          have := expect_semicolon_safe rest1 hrest1
          rw [h2] at this
          exact pfail_safe_error _ _ _ this
      | ok rest2 =>
          have hrest2 : eof_last rest2 = true := by
            have := expect_semicolon_safe rest1 hrest1
            rw [h2] at this
            exact this
          rw [except_bind_ok]
          exact hrest2

/-- On an Eof-terminated token list the statement loop never reaches a panic
branch. -/
theorem parse_loop_no_panic :
    ∀ fuel l, eof_last l = true →
      pfail_safe (fun _ : List Stmt => True) (parse_loop fuel l) := by
  intro fuel
  induction fuel with
  | zero => intro l hl; trivial
  | succ fuel ih =>
      intro l hl
      simp only [parse_loop]
      cases l with
      | nil => simp [eof_last] at hl
      | cons t rest0 =>
          simp only
          by_cases he : t.kind = .Eof
          · rw [if_pos he]
            trivial
          rw [if_neg he]
          by_cases hp : t.kind = .Print
          · rw [if_pos hp]
            have hrest0 : eof_last rest0 = true := eof_last_cons t rest0 hl he
            cases h1 : print_statement fuel rest0 with
            | error e1 =>
                rw [except_bind_error]
                have := print_statement_no_panic fuel rest0 hrest0
                rw [h1] at this
                exact pfail_safe_error _ _ _ this
            | ok p1 =>
                obtain ⟨s, rest⟩ := p1
                have hrest : eof_last rest = true := by
                  have := print_statement_no_panic fuel rest0 hrest0
                  rw [h1] at this
                  exact this
                rw [except_bind_ok]
                simp only
                cases h2 : parse_loop fuel rest with
                | error e2 =>
                    rw [except_bind_error]
                    have := ih rest hrest
                    rw [h2] at this
                    exact this
                | ok ss =>
                    rw [except_bind_ok]
                    trivial
          · rw [if_neg hp]
            cases h1 : expression_statement fuel (t :: rest0) with
            | error e1 =>
                rw [except_bind_error]
                have := expression_statement_no_panic fuel (t :: rest0) hl
                rw [h1] at this
                exact pfail_safe_error _ _ _ this
            | ok p1 =>
                obtain ⟨s, rest⟩ := p1
                have hrest : eof_last rest = true := by
                  have := expression_statement_no_panic fuel (t :: rest0) hl
                  rw [h1] at this
                  exact this
                rw [except_bind_ok]
                simp only
                cases h2 : parse_loop fuel rest with
                | error e2 =>
                    rw [except_bind_error]
                    have := ih rest hrest
                    rw [h2] at this
                    exact this
                | ok ss =>
                    rw [except_bind_ok]
                    trivial

/-- C10: on every Eof-terminated token sequence (the shape the scanner
guarantees), parse reaches no panic branch and does not run out of fuel: it
totally returns either a statement list or an ordinary ParsingError; and an
Eof token reached where a primary expression is expected produces the
expected-primary-got-EOF ParsingError, not a panic. -/
theorem c10_parse_never_panics :
    (∀ tokens, eof_last tokens = true →
      (∃ stmts, parse tokens = .ok stmts) ∨
      (∃ e, parse tokens = .error (.perr e))) ∧
    parse [⟨.Print, ["p", "r", "i", "n", "t"], none, Loc.single 1⟩, eof_token] =
      .error (.perr ⟨"Syntax error: expected primary expression, got EOF",
        eof_token⟩) := by
  constructor
  · intro tokens hl
    have hnp := parse_loop_no_panic (8 * tokens.length + 9) tokens hl
    have hnf := parse_loop_no_fuelOut (8 * tokens.length + 9) tokens (le_refl _)
    cases hres : parse tokens with
    | ok stmts => exact Or.inl ⟨stmts, rfl⟩
    | error e =>
        cases e with
        | perr pe => exact Or.inr ⟨pe, rfl⟩
        | panicked =>
            simp only [parse] at hres
            rw [hres] at hnp
            exact hnp.elim
        | fuelOut =>
            simp only [parse] at hres
            exact absurd hres hnf
  · decide

/-- Witness for C10: the totality clause applied to the minimal scanner
output, a lone Eof token. -/
theorem c10_parse_never_panics_witness :
    (∃ stmts, parse [eof_token] = .ok stmts) ∨
    (∃ e, parse [eof_token] = .error (.perr e)) :=
  c10_parse_never_panics.1 [eof_token] (by decide)

/-- Witness for C9: `1 / 0` evaluates without error to infinity. -/
theorem c9_division_never_errors_witness :
    evaluate (.Binary (.Literal (some (.Number (.finite 1))))
        (⟨.Slash, ["/"], none, Loc.single 1⟩ : Token)
        (.Literal (some (.Number (.finite 0))))) =
      .ok (some (.Number (F64.div (.finite 1) (.finite 0)))) ∧
    F64.div (.finite 1) (.finite 0) = .inf :=
  ⟨c9_division_never_errors.1 ⟨.Slash, ["/"], none, Loc.single 1⟩
      (.finite 1) (.finite 0) (by decide),
   c9_division_never_errors.2.1 1 (by norm_num)⟩

/-- The identifier tail loop consumes exactly an identifier-trailing prefix. -/
theorem ident_tail_spec :
    ∀ gs acc rest, ident_tail gs = (acc, rest) →
      gs = acc ++ rest ∧ ∀ g ∈ acc, is_ident_trailing g = true := by
  intro gs
  induction gs with
  | nil =>
      intro acc rest h
      cases h
      exact ⟨rfl, by simp⟩
  | cons g gs ih =>
      intro acc rest h
      simp only [ident_tail] at h
      by_cases htr : is_ident_trailing g = true
      · rw [if_pos htr] at h
        cases hrec : ident_tail gs with
        | mk acc2 rest2 =>
            rw [hrec] at h
            simp only at h
            cases h
            obtain ⟨he, hm⟩ := ih _ _ hrec
            constructor
            · simp [he]
            · intro u hu
              cases hu with
              | head => exact htr
              | tail _ hu2 => exact hm _ hu2
      · rw [if_neg htr] at h
        cases h
        exact ⟨rfl, by simp⟩

/-- Rescanning a fully identifier-trailing list consumes all of it. -/
theorem ident_tail_replay :
    ∀ acc, (∀ g ∈ acc, is_ident_trailing g = true) →
      ident_tail acc = (acc, []) := by
  intro acc
  induction acc with
  | nil => intro h; rfl
  | cons g gs ih =>
      intro h
      have hg : is_ident_trailing g = true := h g (List.mem_cons_self g gs)
      have hgs := ih (fun u hu => h u (List.mem_cons_of_mem g hu))
      simp only [ident_tail, if_pos hg, hgs]

/-- Rescanning the digits-and-point list a number scan accumulated, from the
same has-point state, consumes all of it and reproduces it. -/
theorem num_tail_replay :
    ∀ gs line hp acc rest, num_tail line gs hp = .ok (acc, rest) →
      ∀ line2, num_tail line2 acc hp = .ok (acc, []) := by
  intro gs
  induction gs with
  | nil =>
      intro line hp acc rest h line2
      cases h
      rfl
  | cons g gs ih =>
      intro line hp acc rest h line2
      simp only [num_tail] at h
      by_cases hd : is_digit g = true
      · rw [if_pos hd] at h
        cases hrec : num_tail line gs hp with
        | error e1 => rw [hrec, except_bind_error] at h; cases h
        | ok p1 =>
            obtain ⟨acc2, rest2⟩ := p1
            rw [hrec, except_bind_ok] at h
            simp only at h
            cases h
            have hrep := ih _ _ _ _ hrec line2
            simp only [num_tail, if_pos hd, hrep, except_bind_ok]
      · rw [if_neg hd] at h
        by_cases hpt : g = "."
        · rw [if_pos hpt] at h
          by_cases hhp : hp = true
          · rw [if_pos hhp] at h
            cases h
          · rw [if_neg hhp] at h
            cases hrec : num_tail line gs true with
            | error e1 => rw [hrec, except_bind_error] at h; cases h
            | ok p1 =>
                obtain ⟨acc2, rest2⟩ := p1
                rw [hrec, except_bind_ok] at h
                simp only at h
                cases h
                have hrep := ih _ _ _ _ hrec line2
                simp only [num_tail, hrep, except_bind_ok]
                simp [hhp]
                intro hfalse
                exact absurd hfalse (by decide)
        · rw [if_neg hpt] at h
          cases h
          rfl

/-- A string-content scan starting at a non-quote grapheme pushes that
grapheme first. -/
theorem str_tail_head :
    ∀ g gs line content le rest,
      str_tail (g :: gs) line = .ok (content, le, rest) → g ≠ "\"" →
      ∃ c2, content = g :: c2 := by
  intro g gs line content le rest h hg
  cases gs with
  | nil =>
      simp only [str_tail, except_bind_error] at h
      by_cases h1 : g = "\n"
      · rw [if_pos h1] at h; cases h
      · rw [if_neg h1, if_neg hg] at h; cases h
  | cons g2 gs3 =>
      simp only [str_tail] at h
      by_cases h1 : g = "\n"
      · rw [if_pos h1] at h
        cases hr : str_tail (g2 :: gs3) (line + 1) with
        | error e => rw [hr, except_bind_error] at h; cases h
        | ok p =>
            obtain ⟨c, le2, r2⟩ := p
            rw [hr, except_bind_ok] at h
            simp only at h
            cases h
            exact ⟨c, by rw [h1]⟩
      · rw [if_neg h1] at h
        by_cases h2 : g = "\\"
        · rw [if_pos h2] at h
          by_cases h3 : g2 = "\""
          · rw [if_pos h3] at h
            cases hr : str_tail gs3 line with
            | error e => rw [hr, except_bind_error] at h; cases h
            | ok p =>
                obtain ⟨c, le2, r2⟩ := p
                rw [hr, except_bind_ok] at h
                simp only at h
                cases h
                exact ⟨"\"" :: c, by rw [h2]⟩
          · rw [if_neg h3] at h
            cases hr : str_tail (g2 :: gs3) line with
            | error e => rw [hr, except_bind_error] at h; cases h
            | ok p =>
                obtain ⟨c, le2, r2⟩ := p
                rw [hr, except_bind_ok] at h
                simp only at h
                cases h
                exact ⟨c, by rw [h2]⟩
        · rw [if_neg h2, if_neg hg] at h
          cases hr : str_tail (g2 :: gs3) line with
          | error e => rw [hr, except_bind_error] at h; cases h
          | ok p =>
              obtain ⟨c, le2, r2⟩ := p
              rw [hr, except_bind_ok] at h
              simp only at h
              cases h
              exact ⟨c, rfl⟩

/-- Content accumulated by a successful string-content scan satisfies the
GoodContent invariant (length-bounded induction). -/
theorem str_tail_good_aux :
    ∀ n gs line content le rest, gs.length ≤ n →
      str_tail gs line = .ok (content, le, rest) → GoodContent content := by
  intro n
  induction n with
  | zero =>
      intro gs line content le rest hlen h
      cases gs with
      | nil => cases h
      | cons g gs2 => simp at hlen
  | succ n ih =>
      intro gs line content le rest hlen h
      cases gs with
      | nil => cases h
      | cons g gs2 =>
          cases gs2 with
          | nil =>
              simp only [str_tail, except_bind_error] at h
              by_cases h1 : g = "\n"
              · rw [if_pos h1] at h; cases h
              rw [if_neg h1] at h
              by_cases h2 : g = "\""
              · rw [if_pos h2] at h
                cases h
                exact GoodContent.nil
              · rw [if_neg h2] at h
                cases h
          | cons g2 gs3 =>
              simp only [str_tail] at h
              by_cases h1 : g = "\n"
              · rw [if_pos h1] at h
                cases hr : str_tail (g2 :: gs3) (line + 1) with
                | error e => rw [hr, except_bind_error] at h; cases h
                | ok p =>
                    obtain ⟨c, le2, r2⟩ := p
                    rw [hr, except_bind_ok] at h
                    simp only at h
                    cases h
                    have hg := ih (g2 :: gs3) (line + 1) c _ _
                      (by simp at hlen ⊢; omega) hr
                    exact GoodContent.nl c hg
              · rw [if_neg h1] at h
                by_cases h2 : g = "\\"
                · rw [if_pos h2] at h
                  by_cases h3 : g2 = "\""
                  · rw [if_pos h3] at h
                    cases hr : str_tail gs3 line with
                    | error e => rw [hr, except_bind_error] at h; cases h
                    | ok p =>
                        obtain ⟨c, le2, r2⟩ := p
                        rw [hr, except_bind_ok] at h
                        simp only at h
                        cases h
                        have hg := ih gs3 line c _ _
                          (by simp at hlen ⊢; omega) hr
                        exact GoodContent.esc c hg
                  · rw [if_neg h3] at h
                    cases hr : str_tail (g2 :: gs3) line with
                    | error e => rw [hr, except_bind_error] at h; cases h
                    | ok p =>
                        obtain ⟨c, le2, r2⟩ := p
                        rw [hr, except_bind_ok] at h
                        simp only at h
                        cases h
                        have hg := ih (g2 :: gs3) line c _ _
                          (by simp at hlen ⊢; omega) hr
                        obtain ⟨c2, rfl⟩ :=
                          str_tail_head g2 gs3 line c _ _ hr h3
                        exact GoodContent.bslash g2 c2 h3 hg
                · rw [if_neg h2] at h
                  by_cases h4 : g = "\""
                  · rw [if_pos h4] at h
                    cases h
                    exact GoodContent.nil
                  · rw [if_neg h4] at h
                    cases hr : str_tail (g2 :: gs3) line with
                    | error e => rw [hr, except_bind_error] at h; cases h
                    | ok p =>
                        obtain ⟨c, le2, r2⟩ := p
                        rw [hr, except_bind_ok] at h
                        simp only at h
                        cases h
                        have hg := ih (g2 :: gs3) line c _ _
                          (by simp at hlen ⊢; omega) hr
                        exact GoodContent.other g c h4 h2 h1 hg

/-- Content accumulated by a successful string-content scan satisfies the
GoodContent invariant. -/
theorem str_tail_good :
    ∀ gs line content le rest, str_tail gs line = .ok (content, le, rest) →
      GoodContent content :=
  fun gs line content le rest h =>
    str_tail_good_aux gs.length gs line content le rest (le_refl _) h

/-- Rescanning good content followed by a closing quote consumes everything
and reproduces the content verbatim. -/
theorem str_tail_replay :
    ∀ content, GoodContent content → ∀ line,
      ∃ le, str_tail (content ++ ["\""]) line = .ok (content, le, []) := by
  intro content hgc
  induction hgc with
  | nil => intro line; exact ⟨line, by simp [str_tail]⟩
  | esc rest hrest ih =>
      intro line
      obtain ⟨le, hle⟩ := ih line
      refine ⟨le, ?_⟩
      simp only [List.cons_append] at hle ⊢
      simp [str_tail, hle, except_bind_ok]
  | nl rest hrest ih =>
      intro line
      cases rest with
      | nil => exact ⟨line + 1, by simp [str_tail, except_bind_ok]⟩
      | cons r rs =>
          obtain ⟨le, hle⟩ := ih (line + 1)
          refine ⟨le, ?_⟩
          simp only [List.cons_append] at hle ⊢
          simp [str_tail, hle, except_bind_ok]
  | bslash hd rest hne hrest ih =>
      intro line
      obtain ⟨le, hle⟩ := ih line
      refine ⟨le, ?_⟩
      simp only [List.cons_append] at hle ⊢
      simp [str_tail, hne, hle, except_bind_ok]
  | other g rest hq hb hn hrest ih =>
      intro line
      cases rest with
      | nil =>
          refine ⟨line, ?_⟩
          simp only [List.cons_append, List.nil_append]
          simp [str_tail, hq, hb, hn, except_bind_ok]
      | cons r rs =>
          obtain ⟨le, hle⟩ := ih line
          refine ⟨le, ?_⟩
          simp only [List.cons_append] at hle ⊢
          simp [str_tail, hq, hb, hn, hle, except_bind_ok]

/-- Re-scanning the lexeme of any non-Eof token produced by parse_token
consumes the whole lexeme and reproduces the token (up to its line
location): same kind, same lexeme, same literal value. -/
theorem parse_token_replay :
    ∀ l line t rest, parse_token l line = .ok (t, rest) → t.kind ≠ .Eof →
      ∃ t2, parse_token t.lexeme 1 = .ok (t2, []) ∧ t2.kind = t.kind ∧
        t2.lexeme = t.lexeme ∧ t2.literal = t.literal := by
  intro l line t rest h hne
  cases l with
  | nil =>
      exfalso
      apply hne
      cases h
      rfl
  | cons g gs =>
      simp only [parse_token] at h
      by_cases hq : g = "\""
      · rw [if_pos hq] at h
        simp only [parse_str_literal] at h
        cases hr : str_tail gs line with
        | error e => rw [hr, except_bind_error] at h; cases h
        | ok p =>
            obtain ⟨content, le, r2⟩ := p
            rw [hr, except_bind_ok] at h
            simp only at h
            cases h
            have hgc := str_tail_good _ _ _ _ _ hr
            obtain ⟨le2, hrep⟩ := str_tail_replay content hgc 1
            refine ⟨⟨.String, "\"" :: (content ++ ["\""]),
              some (.String (String.join content)), ⟨1, le2⟩⟩, ?_, rfl, rfl, rfl⟩
            simp only [parse_token, if_true]
            simp only [parse_str_literal, hrep, except_bind_ok]
      rw [if_neg hq] at h
      by_cases hd : is_digit g = true
      · rw [if_pos hd] at h
        simp only [parse_number_literal] at h
        cases hr : num_tail line gs (g == ".") with
        | error e => rw [hr, except_bind_error] at h; cases h
        | ok p =>
            obtain ⟨acc, r2⟩ := p
            rw [hr, except_bind_ok] at h
            simp only at h
            cases h
            have hrep := num_tail_replay _ _ _ _ _ hr 1
            refine ⟨⟨.Number, g :: acc,
              some (.Number (.finite (parse_decimal (g :: acc)))),
              Loc.single 1⟩, ?_, rfl, rfl, rfl⟩
            simp only [parse_token]
            rw [if_neg hq, if_pos hd]
            simp only [parse_number_literal, hrep, except_bind_ok]
      rw [if_neg hd] at h
      by_cases hdot : g = "."
      · rw [if_pos hdot] at h
        cases gs with
        | nil =>
            simp only at h
            cases h
            subst hdot
            exact ⟨⟨.Dot, ["."], none, Loc.single 1⟩,
                by show parse_token ["."] 1 = Except.ok (⟨.Dot, ["."], none, Loc.single 1⟩, []); decide,
                rfl, rfl, rfl⟩
        | cons g2 gs2 =>
            simp only at h
            by_cases hd2 : is_digit g2 = true
            · rw [if_pos hd2] at h
              simp only [parse_number_literal] at h
              cases hr : num_tail line (g2 :: gs2) (g == ".") with
              | error e => rw [hr, except_bind_error] at h; cases h
              | ok p =>
                  obtain ⟨acc, r2⟩ := p
                  rw [hr, except_bind_ok] at h
                  simp only at h
                  cases h
                  have hrep := num_tail_replay _ _ _ _ _ hr 1
                  have hshape : ∃ acc2, acc = g2 :: acc2 := by
                    simp only [num_tail, if_pos hd2] at hr
                    cases hr2 : num_tail line gs2 (g == ".") with
                    | error e => rw [hr2, except_bind_error] at hr; cases hr
                    | ok p2 =>
                        obtain ⟨acc2, r3⟩ := p2
                        rw [hr2, except_bind_ok] at hr
                        simp only at hr
                        cases hr
                        exact ⟨acc2, rfl⟩
                  obtain ⟨acc2, rfl⟩ := hshape
                  refine ⟨⟨.Number, g :: g2 :: acc2,
                    some (.Number (.finite (parse_decimal (g :: g2 :: acc2)))),
                    Loc.single 1⟩, ?_, rfl, rfl, rfl⟩
                  simp only [parse_token]
                  rw [if_neg hq, if_neg hd, if_pos hdot]
                  rw [if_pos hd2]
                  simp only [parse_number_literal, hrep, except_bind_ok]
            · rw [if_neg hd2] at h
              cases h
              subst hdot
              exact ⟨⟨.Dot, ["."], none, Loc.single 1⟩,
                by show parse_token ["."] 1 = Except.ok (⟨.Dot, ["."], none, Loc.single 1⟩, []); decide,
                rfl, rfl, rfl⟩
      rw [if_neg hdot] at h
      by_cases hid : is_ident_start g = true
      · rw [if_pos hid] at h
        simp only [parse_identifier] at h
        cases hit : ident_tail gs with
        | mk acc r2 =>
            rw [hit] at h
            simp only at h
            cases h
            obtain ⟨hgs, hacc⟩ := ident_tail_spec _ _ _ hit
            refine ⟨keyword_or_identifier_token (g :: acc) 1, ?_, rfl, rfl, rfl⟩
            show parse_token (g :: acc) 1 = _
            simp only [parse_token]
            rw [if_neg hq, if_neg hd, if_neg hdot, if_pos hid]
            simp only [parse_identifier, ident_tail_replay acc hacc]
      rw [if_neg hid] at h
      by_cases hws : g = " " ∨ g = "\r" ∨ g = "\t"
      · rw [if_pos hws] at h
        cases h
        rcases hws with rfl | rfl | rfl
        · exact ⟨⟨.Whitespace, [" "], none, Loc.single 1⟩,
                by show parse_token [" "] 1 = Except.ok (⟨.Whitespace, [" "], none, Loc.single 1⟩, []); decide,
                rfl, rfl, rfl⟩
        · exact ⟨⟨.Whitespace, ["\r"], none, Loc.single 1⟩,
                by show parse_token ["\r"] 1 = Except.ok (⟨.Whitespace, ["\r"], none, Loc.single 1⟩, []); decide,
                rfl, rfl, rfl⟩
        · exact ⟨⟨.Whitespace, ["\t"], none, Loc.single 1⟩,
                by show parse_token ["\t"] 1 = Except.ok (⟨.Whitespace, ["\t"], none, Loc.single 1⟩, []); decide,
                rfl, rfl, rfl⟩
      rw [if_neg hws] at h
      by_cases hlp : g = "("
      · rw [if_pos hlp] at h
        cases h
        subst hlp
        exact ⟨⟨.LeftParen, ["("], none, Loc.single 1⟩,
                by show parse_token ["("] 1 = Except.ok (⟨.LeftParen, ["("], none, Loc.single 1⟩, []); decide,
                rfl, rfl, rfl⟩
      rw [if_neg hlp] at h
      by_cases hrp : g = ")"
      · rw [if_pos hrp] at h
        cases h
        subst hrp
        exact ⟨⟨.RightParen, [")"], none, Loc.single 1⟩,
                by show parse_token [")"] 1 = Except.ok (⟨.RightParen, [")"], none, Loc.single 1⟩, []); decide,
                rfl, rfl, rfl⟩
      rw [if_neg hrp] at h
      by_cases hlb : g = "\x7b"
      · rw [if_pos hlb] at h
        cases h
        subst hlb
        exact ⟨⟨.LeftBrace, ["\x7b"], none, Loc.single 1⟩,
                by show parse_token ["\x7b"] 1 = Except.ok (⟨.LeftBrace, ["\x7b"], none, Loc.single 1⟩, []); decide,
                rfl, rfl, rfl⟩
      rw [if_neg hlb] at h
      by_cases hrb : g = "\x7d"
      · rw [if_pos hrb] at h
        cases h
        subst hrb
        exact ⟨⟨.RightBrace, ["\x7d"], none, Loc.single 1⟩,
                by show parse_token ["\x7d"] 1 = Except.ok (⟨.RightBrace, ["\x7d"], none, Loc.single 1⟩, []); decide,
                rfl, rfl, rfl⟩
      rw [if_neg hrb] at h
      by_cases hcm : g = ","
      · rw [if_pos hcm] at h
        cases h
        subst hcm
        exact ⟨⟨.Comma, [","], none, Loc.single 1⟩,
                by show parse_token [","] 1 = Except.ok (⟨.Comma, [","], none, Loc.single 1⟩, []); decide,
                rfl, rfl, rfl⟩
      rw [if_neg hcm] at h
      by_cases hmn : g = "-"
      · rw [if_pos hmn] at h
        cases h
        subst hmn
        exact ⟨⟨.Minus, ["-"], none, Loc.single 1⟩,
                by show parse_token ["-"] 1 = Except.ok (⟨.Minus, ["-"], none, Loc.single 1⟩, []); decide,
                rfl, rfl, rfl⟩
      rw [if_neg hmn] at h
      by_cases hpl : g = "+"
      · rw [if_pos hpl] at h
        cases h
        subst hpl
        exact ⟨⟨.Plus, ["+"], none, Loc.single 1⟩,
                by show parse_token ["+"] 1 = Except.ok (⟨.Plus, ["+"], none, Loc.single 1⟩, []); decide,
                rfl, rfl, rfl⟩
      rw [if_neg hpl] at h
      by_cases hsc : g = ";"
      · rw [if_pos hsc] at h
        cases h
        subst hsc
        exact ⟨⟨.Semicolon, [";"], none, Loc.single 1⟩,
                by show parse_token [";"] 1 = Except.ok (⟨.Semicolon, [";"], none, Loc.single 1⟩, []); decide,
                rfl, rfl, rfl⟩
      rw [if_neg hsc] at h
      by_cases hst : g = "*"
      · rw [if_pos hst] at h
        cases h
        subst hst
        exact ⟨⟨.Star, ["*"], none, Loc.single 1⟩,
                by show parse_token ["*"] 1 = Except.ok (⟨.Star, ["*"], none, Loc.single 1⟩, []); decide,
                rfl, rfl, rfl⟩
      rw [if_neg hst] at h
      by_cases hnl : g = "\n"
      · rw [if_pos hnl] at h
        cases h
        subst hnl
        exact ⟨⟨.NewLine, ["\n"], none, Loc.single 1⟩,
                by show parse_token ["\n"] 1 = Except.ok (⟨.NewLine, ["\n"], none, Loc.single 1⟩, []); decide,
                rfl, rfl, rfl⟩
      rw [if_neg hnl] at h
      by_cases hbg : g = "!"
      · rw [if_pos hbg] at h
        subst hbg
        cases gs with
        | nil =>
            simp only at h
            cases h
            exact ⟨⟨.Bang, ["!"], none, Loc.single 1⟩,
                by show parse_token ["!"] 1 = Except.ok (⟨.Bang, ["!"], none, Loc.single 1⟩, []); decide,
                rfl, rfl, rfl⟩
        | cons g2 gs2 =>
            simp only at h
            by_cases h2 : g2 = "="
            · rw [if_pos h2] at h
              cases h
              exact ⟨⟨.BangEqual, ["!", "="], none, Loc.single 1⟩,
                by show parse_token ["!", "="] 1 = Except.ok (⟨.BangEqual, ["!", "="], none, Loc.single 1⟩, []); decide,
                rfl, rfl, rfl⟩
            · rw [if_neg h2] at h
              cases h
              exact ⟨⟨.Bang, ["!"], none, Loc.single 1⟩,
                by show parse_token ["!"] 1 = Except.ok (⟨.Bang, ["!"], none, Loc.single 1⟩, []); decide,
                rfl, rfl, rfl⟩
      rw [if_neg hbg] at h
      by_cases heq2 : g = "="
      · rw [if_pos heq2] at h
        subst heq2
        cases gs with
        | nil =>
            simp only at h
            cases h
            exact ⟨⟨.Equal, ["="], none, Loc.single 1⟩,
                by show parse_token ["="] 1 = Except.ok (⟨.Equal, ["="], none, Loc.single 1⟩, []); decide,
                rfl, rfl, rfl⟩
        | cons g2 gs2 =>
            simp only at h
            by_cases h2 : g2 = "="
            · rw [if_pos h2] at h
              cases h
              exact ⟨⟨.EqualEqual, ["=", "="], none, Loc.single 1⟩,
                by show parse_token ["=", "="] 1 = Except.ok (⟨.EqualEqual, ["=", "="], none, Loc.single 1⟩, []); decide,
                rfl, rfl, rfl⟩
            · rw [if_neg h2] at h
              cases h
              exact ⟨⟨.Equal, ["="], none, Loc.single 1⟩,
                by show parse_token ["="] 1 = Except.ok (⟨.Equal, ["="], none, Loc.single 1⟩, []); decide,
                rfl, rfl, rfl⟩
      rw [if_neg heq2] at h
      by_cases hlt : g = "<"
      · rw [if_pos hlt] at h
        subst hlt
        cases gs with
        | nil =>
            simp only at h
            cases h
            exact ⟨⟨.Less, ["<"], none, Loc.single 1⟩,
                by show parse_token ["<"] 1 = Except.ok (⟨.Less, ["<"], none, Loc.single 1⟩, []); decide,
                rfl, rfl, rfl⟩
        | cons g2 gs2 =>
            simp only at h
            by_cases h2 : g2 = "="
            · rw [if_pos h2] at h
              cases h
              exact ⟨⟨.LessEqual, ["<", "="], none, Loc.single 1⟩,
                by show parse_token ["<", "="] 1 = Except.ok (⟨.LessEqual, ["<", "="], none, Loc.single 1⟩, []); decide,
                rfl, rfl, rfl⟩
            · rw [if_neg h2] at h
              cases h
              exact ⟨⟨.Less, ["<"], none, Loc.single 1⟩,
                by show parse_token ["<"] 1 = Except.ok (⟨.Less, ["<"], none, Loc.single 1⟩, []); decide,
                rfl, rfl, rfl⟩
      rw [if_neg hlt] at h
      by_cases hgt : g = ">"
      · rw [if_pos hgt] at h
        subst hgt
        cases gs with
        | nil =>
            simp only at h
            cases h
            exact ⟨⟨.Greater, [">"], none, Loc.single 1⟩,
                by show parse_token [">"] 1 = Except.ok (⟨.Greater, [">"], none, Loc.single 1⟩, []); decide,
                rfl, rfl, rfl⟩
        | cons g2 gs2 =>
            simp only at h
            by_cases h2 : g2 = "="
            · rw [if_pos h2] at h
              cases h
              exact ⟨⟨.GreaterEqual, [">", "="], none, Loc.single 1⟩,
                by show parse_token [">", "="] 1 = Except.ok (⟨.GreaterEqual, [">", "="], none, Loc.single 1⟩, []); decide,
                rfl, rfl, rfl⟩
            · rw [if_neg h2] at h
              cases h
              exact ⟨⟨.Greater, [">"], none, Loc.single 1⟩,
                by show parse_token [">"] 1 = Except.ok (⟨.Greater, [">"], none, Loc.single 1⟩, []); decide,
                rfl, rfl, rfl⟩
      rw [if_neg hgt] at h
      by_cases hsl : g = "/"
      · rw [if_pos hsl] at h
        subst hsl
        cases gs with
        | nil =>
            simp only at h
            cases h
            exact ⟨⟨.Slash, ["/"], none, Loc.single 1⟩,
                by show parse_token ["/"] 1 = Except.ok (⟨.Slash, ["/"], none, Loc.single 1⟩, []); decide,
                rfl, rfl, rfl⟩
        | cons g2 gs2 =>
            simp only at h
            by_cases h2 : g2 = "/"
            · rw [if_pos h2] at h
              cases h
              exact ⟨⟨.Comment, ["/", "/"], none, Loc.single 1⟩,
                by show parse_token ["/", "/"] 1 = Except.ok (⟨.Comment, ["/", "/"], none, Loc.single 1⟩, []); decide,
                rfl, rfl, rfl⟩
            · rw [if_neg h2] at h
              cases h
              exact ⟨⟨.Slash, ["/"], none, Loc.single 1⟩,
                by show parse_token ["/"] 1 = Except.ok (⟨.Slash, ["/"], none, Loc.single 1⟩, []); decide,
                rfl, rfl, rfl⟩
      rw [if_neg hsl] at h
      cases h

/-- Every token of a successful scan was produced by some parse_token call. -/
theorem scan_loop_mem :
    ∀ fuel l line ts, scan_loop fuel l line = .ok ts →
      ∀ t ∈ ts, ∃ l2 line2 rest2, parse_token l2 line2 = .ok (t, rest2) := by
  intro fuel
  induction fuel with
  | zero => intro l line ts h; simp [scan_loop] at h
  | succ fuel ih =>
      intro l line ts h
      simp only [scan_loop] at h
      cases hpt : parse_token l line with
      | error e => rw [hpt] at h; cases h
      | ok tr =>
          obtain ⟨t, rest⟩ := tr
          rw [hpt] at h
          simp only at h
          by_cases hw : t.kind = .Whitespace
          · rw [if_pos hw] at h; exact ih _ _ _ h
          rw [if_neg hw] at h
          by_cases hc : t.kind = .Comment
          · rw [if_pos hc] at h; exact ih _ _ _ h
          rw [if_neg hc] at h
          by_cases hn : t.kind = .NewLine
          · rw [if_pos hn] at h; exact ih _ _ _ h
          rw [if_neg hn] at h
          by_cases he : t.kind = .Eof
          · rw [if_pos he] at h
            cases h
            intro u hu
            cases hu with
            | head => exact ⟨l, line, rest, hpt⟩
            | tail _ hu2 => cases hu2
          · rw [if_neg he] at h
            cases hrec : scan_loop fuel rest
                (if t.loc.is_single then line else line + t.loc.offset) with
            | error e => rw [hrec] at h; cases h
            | ok ts2 =>
                rw [hrec] at h
                cases h
                intro u hu
                cases hu with
                | head => exact ⟨l, line, rest, hpt⟩
                | tail _ hu2 => exact ih _ _ _ hrec u hu2

/-- Scanning a text that parse_token consumes whole into one ordinary token
yields exactly that token followed by Eof. -/
theorem scan_of_lexeme :
    ∀ lex t2, parse_token lex 1 = .ok (t2, []) →
      t2.kind ≠ .Whitespace → t2.kind ≠ .Comment → t2.kind ≠ .NewLine →
      t2.kind ≠ .Eof →
      ∃ te, scan lex = .ok [t2, te] ∧ te.kind = .Eof := by
  intro lex t2 hpt hw hc hn he
  cases lex with
  | nil =>
      exfalso
      apply he
      cases hpt
      rfl
  | cons x xs =>
      refine ⟨⟨.Eof, ["\x00"], none, Loc.single
        (if t2.loc.is_single then 1 else 1 + t2.loc.offset)⟩, ?_, rfl⟩
      show scan_loop ((x :: xs).length + 1) (x :: xs) 1 = _
      have hlen : (x :: xs).length + 1 = xs.length + 1 + 1 := by simp
      rw [hlen]
      simp only [scan_loop, hpt]
      rw [if_neg hw, if_neg hc, if_neg hn, if_neg he]
      simp only [scan_loop, parse_token]
      simp

/-- C8 counterexample: the Eof token is emitted by every successful scan
(here: of the empty source) with lexeme `"\x00"`, and scanning that lexeme
text does not succeed: it is an Unknown-token lexing error, so the Eof token
does not round-trip. -/
theorem c8_eof_lexeme_counterexample :
    scan [] = .ok [⟨.Eof, ["\x00"], none, Loc.single 1⟩] ∧
    scan ["\x00"] = .error ⟨"Unknown token", some "\x00", Loc.single 1⟩ :=
  ⟨by decide, by decide⟩

/-- C8 amended: for every non-Eof token emitted by a successful scan,
scanning that token's exact lexeme text succeeds and reproduces a token of
the same kind, lexeme and literal value (followed by the terminating Eof
token); the Eof token itself, whose lexeme is the null character, is the
sole exception. -/
theorem c8_lexeme_roundtrip_amended :
    ∀ src ts, scan src = .ok ts → ∀ t ∈ ts, t.kind ≠ .Eof →
      ∃ t2 te, scan t.lexeme = .ok [t2, te] ∧ t2.kind = t.kind ∧
        t2.lexeme = t.lexeme ∧ t2.literal = t.literal ∧ te.kind = .Eof := by
  intro src ts h t ht hne
  obtain ⟨l2, line2, rest2, hpt⟩ := scan_loop_mem _ _ _ _ h t ht
  obtain ⟨ts0, te0, rfl, hte, hmeta⟩ := scan_loop_shape _ _ _ _ h
  have hm : t.kind ≠ .Comment ∧ t.kind ≠ .Whitespace ∧ t.kind ≠ .NewLine := by
    rcases List.mem_append.mp ht with h1 | h1
    · exact ⟨(hmeta t h1).2.1, (hmeta t h1).2.2.1, (hmeta t h1).2.2.2⟩
    · rw [List.mem_singleton.mp h1] at hne
      exact absurd hte hne
  obtain ⟨t2, hrt, hk, hlex, hlit⟩ := parse_token_replay _ _ _ _ hpt hne
  obtain ⟨te, hscan, htek⟩ := scan_of_lexeme _ _ hrt
    (by rw [hk]; exact hm.2.1) (by rw [hk]; exact hm.1)
    (by rw [hk]; exact hm.2.2) (by rw [hk]; exact hne)
  exact ⟨t2, te, hscan, hk, hlex, hlit, htek⟩

/-- Witness for C8 amended: the Number token scanned from `1;`
round-trips. -/
theorem c8_lexeme_roundtrip_amended_witness :
    ∃ t2 te,
      scan (⟨.Number, ["1"], some (.Number (.finite 1)), Loc.single 1⟩ :
          Token).lexeme = .ok [t2, te] ∧
      t2.kind = TokenKind.Number ∧ t2.lexeme = ["1"] ∧
      t2.literal = some (.Number (.finite 1)) ∧ te.kind = .Eof :=
  c8_lexeme_roundtrip_amended ["1", ";"]
    [⟨.Number, ["1"], some (.Number (.finite 1)), Loc.single 1⟩,
     ⟨.Semicolon, [";"], none, Loc.single 1⟩,
     ⟨.Eof, ["\x00"], none, Loc.single 1⟩]
    (by decide)
    ⟨.Number, ["1"], some (.Number (.finite 1)), Loc.single 1⟩
    (by simp)
    (by decide)

end Rlox
